import Mathlib

/-!
Verification development for the request-lifecycle core of an LLM serving
engine: the paged block manager, the prefix-sharing radix cache, the
sequence state machine and the continuous-batching scheduler.

The definitions below are a shallow embedding of the C++ sources:

* `src/src/memory/prefix_cache.cpp` (match / insert / split_node /
  create_child / evict / evict_helper / release_node),
* `src/unnamed/part_003` (`BlockManager`: allocate_blocks_for,
  allocate_shared_blocks, has_enough_blocks, release_blocks_for),
* `src/src/request/sequence.cpp` and `src/src/request/sequence.h`
  (`Sequence`: append_shared_blocks, release_blocks, check_finished,
  is_finished, tokens_in_kv_cache, num_generated_tokens),
* `src/src/request/request.cpp` (`Request`: is_finished,
  should_expand_sequences),
* `src/src/scheduler/continuous_scheduler.cpp`
  (`ContinuousBatchingScheduler::build_sequence_batch` and its
  `allocate_blocks_for` wrapper).

Modelling conventions:

* token ids (C++ `int32_t`) are `Int`; they are only ever compared for
  equality, so machine width is irrelevant to every claim considered here;
* physical block ids are `Nat`; a `Block` handle is represented by its id,
  and the reference counts that the C++ `Block` objects share are carried
  explicitly in an `AllocState` (a free list plus a per-id refcount table),
  with the refcount effect of cloning/dropping handles applied at the
  points where a container retains or drops them;
* the C++ `std::unordered_set` children / leaf sets have unspecified
  iteration order; they are modelled as lists, fixing one admissible order;
* recursive walks carry an explicit fuel argument so that every definition
  is executable by kernel reduction; wrappers pass fuel that provably
  exceeds the recursion depth (each recursive call consumes at least one
  token / one evicted block / one queue element);
* fields of the C++ classes that no claim observes (access timestamps,
  logprob buffers, token-count histograms, incremental-decoder offsets)
  are omitted;
* `CHECK`-style assertions abort the C++ process; the embedding keeps the
  functions total and the theorems carry the corresponding preconditions.
-/

/-- Length of the longest common prefix of two token lists
(`common_prefix_length` in prefix_cache.cpp). -/
def commonPrefixLen : List Int → List Int → Nat
  | a :: as, b :: bs => if a = b then commonPrefixLen as bs + 1 else 0
  | _, _ => 0

/-- Round `n` down to a multiple of `mult` (`round_down` in
prefix_cache.cpp). -/
def roundDown (n mult : Nat) : Nat := n / mult * mult

/-- Physical block id. A C++ `Block` handle is modelled by its id; the
shared reference count lives in `AllocState.refs`. -/
abbrev BlockId := Nat

/-- Allocator-side state: the free list of the `BlockAllocator` together
with the per-id reference counts of all live `Block` handles. -/
structure AllocState where
  freeIds : List BlockId
  refs : List Nat
deriving Repr, DecidableEq

/-- Reference count of a block id (0 when no handle is live). -/
def AllocState.refCount (st : AllocState) (id : BlockId) : Nat :=
  st.refs.getD id 0

/-- A handle is cloned and retained: its reference count goes up by one
(`Block::inc_ref_count`). -/
def incRef (refs : List Nat) (id : BlockId) : List Nat :=
  refs.set id (refs.getD id 0 + 1)

/-- The last step of dropping one retained handle of a block
(`Block::dec_ref_count`): decrement the count, and when it reaches zero the
physical id returns to the allocator free list. -/
def dropBlock (st : AllocState) (id : BlockId) : AllocState :=
  if st.refs.getD id 0 ≤ 1 then
    { freeIds := st.freeIds ++ [id], refs := st.refs.set id 0 }
  else
    { st with refs := st.refs.set id (st.refs.getD id 0 - 1) }

/-- Drop a list of retained handles in order. -/
def dropBlocks (st : AllocState) (ids : List BlockId) : AllocState :=
  ids.foldl dropBlock st

/-- Modelled from the spec: `BlockAllocator::allocate` (block_allocator.h /
block_allocator.cpp are not under src/; only callers and the spec describe
it). Per spec section 4.1 it pops `k` ids from the free list and returns
them as fresh handles with `ref_count = 1`; callers guard `k` against
`free_block_count()` first. -/
def allocatorAllocate (st : AllocState) (k : Nat) : List BlockId × AllocState :=
  let ids := st.freeIds.take k
  (ids, { freeIds := st.freeIds.drop k, refs := ids.foldl (fun r i => r.set i 1) st.refs })

/-- Node of the prefix-cache radix tree (`PrefixCache::Node`): the token
ids the node represents, the blocks backing them, and the child nodes.
The `parent` back-pointer and `last_access_time` of the C++ struct are
represented implicitly / omitted (no claim observes LRU order). -/
inductive PNode where
  | mk (tokenIds : List Int) (blocks : List BlockId) (children : List PNode)
deriving Repr

/-- Token ids represented by the node. -/
def PNode.tokenIds : PNode → List Int
  | .mk t _ _ => t

/-- Blocks held by the node. -/
def PNode.blocks : PNode → List BlockId
  | .mk _ b _ => b

/-- Children of the node. -/
def PNode.children : PNode → List PNode
  | .mk _ _ c => c

/-- A fresh, empty prefix-cache root. -/
def emptyCache : PNode := .mk [] [] []

instance : Inhabited PNode := ⟨emptyCache⟩

/-- The for-loop over `curr->children` shared by `PrefixCache::match` and
`PrefixCache::insert`: find the first child whose common prefix with the
query, truncated to block granularity, is positive. Returns the child's
position, the child, and the truncated prefix length. -/
def findChild (B : Nat) : List PNode → List Int → Option (Nat × PNode × Nat)
  | [], _ => none
  | c :: cs, toks =>
    let pl := roundDown (commonPrefixLen toks c.tokenIds) B
    if 0 < pl then some (0, c, pl)
    else
      match findChild B cs toks with
      | none => none
      | some (i, c', pl') => some (i + 1, c', pl')

/-- Tree walk of `PrefixCache::match` on the block-aligned query slice:
returns the cloned blocks and the number of matched tokens. Descends into
a child only on a full match of that child's tokens. -/
def matchAux (B : Nat) : Nat → PNode → List Int → List BlockId × Nat
  | 0, _, _ => ([], 0)
  | fuel + 1, node, toks =>
    if toks.isEmpty then ([], 0)
    else
      match findChild B node.children toks with
      | none => ([], 0)
      | some (_, c, pl) =>
        let got := c.blocks.take (pl / B)
        if pl = c.tokenIds.length then
          let rest := matchAux B fuel c (toks.drop pl)
          (got ++ rest.1, pl + rest.2)
        else (got, pl)

/-- `PrefixCache::match`: align the query down to a whole number of blocks,
then walk the tree. Returns (matched blocks, matched token count). -/
def pcMatch (B : Nat) (root : PNode) (tokenIds : List Int) : List BlockId × Nat :=
  let nTokens := roundDown tokenIds.length B
  matchAux B (nTokens + 1) root (tokenIds.take nTokens)

/-- `PrefixCache::split_node`: the node keeps the common prefix (and the
corresponding blocks); the tail tokens, tail blocks and all previous
children move into a single new child. -/
def splitNode (B : Nat) (node : PNode) (pl : Nat) : PNode :=
  .mk (node.tokenIds.take pl) (node.blocks.take (pl / B))
    [.mk (node.tokenIds.drop pl) (node.blocks.drop (pl / B)) node.children]

/-- Tree walk of `PrefixCache::insert` on the block-aligned slices:
returns the updated node, the number of newly inserted tokens, and the
block ids newly retained by the cache (the blocks of the one leaf that
`create_child` may create). -/
def insertAux (B : Nat) : Nat → PNode → List Int → List BlockId → PNode × Nat × List BlockId
  | 0, node, _, _ => (node, 0, [])
  | fuel + 1, node, toks, blks =>
    if toks.isEmpty then (node, 0, [])
    else
      match findChild B node.children toks with
      | none =>
        (.mk node.tokenIds node.blocks (node.children ++ [.mk toks blks []]), toks.length, blks)
      | some (i, c, pl) =>
        let c1 := if pl < c.tokenIds.length then splitNode B c pl else c
        let rest := insertAux B fuel c1 (toks.drop pl) (blks.drop (pl / B))
        (.mk node.tokenIds node.blocks (node.children.set i rest.1), rest.2.1, rest.2.2)

/-- `PrefixCache::insert`: truncate tokens and blocks to whole-block
granularity, then walk the tree. -/
def pcInsert (B : Nat) (root : PNode) (tokenIds : List Int) (blocks : List BlockId) :
    PNode × Nat × List BlockId :=
  let nBlocks := min (tokenIds.length / B) blocks.length
  let nTokens := nBlocks * B
  insertAux B (nTokens + 1) root (tokenIds.take nTokens) (blocks.take nBlocks)

/-- Position of the first non-shared block in a leaf's block list: the
number of leading blocks whose reference count exceeds one
(`non_shared_start` in `PrefixCache::evict_helper`). -/
def countSharedStart (refs : List Nat) : List BlockId → Nat
  | [] => 0
  | b :: bs => if 1 < refs.getD b 0 then countSharedStart refs bs + 1 else 0

mutual
/-- One scan round of `PrefixCache::evict_helper` over the children of a
node, in list order: leaves (children of the pre-round tree with no
children of their own) give up their non-shared tail, whole-leaf
evictions remove the node; non-leaves are recursed into. Returns the
surviving children, the updated allocator state, and the evicted count. -/
def evictChildren (B : Nat) : List PNode → AllocState → Nat → List PNode × AllocState × Nat
  | [], st, _ => ([], st, 0)
  | c :: cs, st, rem =>
    if rem = 0 then (c :: cs, st, 0)
    else if c.children.isEmpty then
      let blocks := c.blocks
      let nonSharedStart := countSharedStart st.refs blocks
      let nToEvict := min rem (blocks.length - nonSharedStart)
      if nToEvict = blocks.length then
        let st1 := dropBlocks st blocks
        let rest := evictChildren B cs st1 (rem - nToEvict)
        (rest.1, rest.2.1, nToEvict + rest.2.2)
      else if 0 < nToEvict then
        let nLeft := blocks.length - nToEvict
        let c1 := PNode.mk (c.tokenIds.take (nLeft * B)) (blocks.take nLeft) []
        let st1 := dropBlocks st (blocks.drop nLeft)
        let rest := evictChildren B cs st1 (rem - nToEvict)
        (c1 :: rest.1, rest.2.1, nToEvict + rest.2.2)
      else
        let rest := evictChildren B cs st rem
        (c :: rest.1, rest.2.1, rest.2.2)
    else
      let sub := evictNode B c st rem
      let rest := evictChildren B cs sub.2.1 (rem - sub.2.2)
      (sub.1 :: rest.1, rest.2.1, sub.2.2 + rest.2.2)

/-- Recurse into a non-leaf node during one `evict_helper` round. -/
def evictNode (B : Nat) : PNode → AllocState → Nat → PNode × AllocState × Nat
  | .mk t b cs, st, rem =>
    let res := evictChildren B cs st rem
    (.mk t b res.1, res.2.1, res.2.2)
end

/-- The scan-until-done loop of `PrefixCache::evict`: repeat
`evict_helper` rounds until the target is reached or a round evicts
nothing. -/
def evictLoop (B : Nat) : Nat → PNode → AllocState → Nat → PNode × AllocState × Nat
  | 0, root, st, _ => (root, st, 0)
  | fuel + 1, root, st, target =>
    if target = 0 then (root, st, 0)
    else
      let round := evictNode B root st target
      if round.2.2 = 0 then (round.1, round.2.1, 0)
      else
        let rest := evictLoop B fuel round.1 round.2.1 (target - round.2.2)
        (rest.1, rest.2.1, round.2.2 + rest.2.2)

/-- `PrefixCache::evict`: try to reclaim `n` blocks; each successful round
evicts at least one block, so `n + 1` rounds always suffice. -/
def pcEvict (B : Nat) (root : PNode) (st : AllocState) (n : Nat) : PNode × AllocState × Nat :=
  evictLoop B (n + 1) root st n

mutual
/-- All block ids held by a node and its descendants. -/
def cacheBlocks : PNode → List BlockId
  | .mk _ b cs => b ++ cacheBlocksList cs

/-- All block ids held by a forest. -/
def cacheBlocksList : List PNode → List BlockId
  | [] => []
  | c :: cs => cacheBlocks c ++ cacheBlocksList cs
end

/-- Number of blocks held by the cache below the root
(`PrefixCache::num_blocks`). -/
def cacheNumBlocks (root : PNode) : Nat :=
  (cacheBlocksList root.children).length

/-- Reason a sequence stopped (`FinishReason` in the request module). -/
inductive FinishReason where
  | NONE
  | STOP
  | LENGTH
  | CANCELLED
deriving Repr, DecidableEq

/-- Stopping criteria of a sequence (stopping_criteria.h): `max_tokens` is
the cap on generated tokens (0 means no cap), plus eos handling, stop
token ids and stop token-id sequences. -/
structure StoppingCriteria where
  maxTokens : Nat
  eosTokenId : Int
  ignoreEosToken : Bool
  stopTokenIds : List Int
  stopSequences : List (List Int)
deriving Repr, DecidableEq

instance : Inhabited StoppingCriteria := ⟨⟨0, 0, false, [], []⟩⟩

/-- The state of one generation stream (`Sequence`): the valid token ids
(prompt followed by generated tokens), the prompt length, the per-engine
kv-cache cursors (`kv_cache_pos_[2]` / `num_kv_cache_tokens_`, index 0 =
LLM, index 1 = SSM), the owned blocks, the cached finish flag with its
invalidation bit, and the stopping criteria. -/
structure Sequence where
  tokenIds : List Int
  numPromptTokens : Nat
  kvCachePos : Nat × Nat
  blocks : List BlockId
  isFinishedFlag : Bool
  finishStatusInvalidated : Bool
  stoppingCriteria : StoppingCriteria
deriving Repr, DecidableEq

instance : Inhabited Sequence := ⟨⟨[], 0, (0, 0), [], false, true, default⟩⟩

/-- `Sequence::num_tokens`. -/
def Sequence.numTokens (s : Sequence) : Nat := s.tokenIds.length

/-- `Sequence::num_generated_tokens`: zero while the sequence holds only
prompt tokens. -/
def Sequence.numGeneratedTokens (s : Sequence) : Nat :=
  if s.numTokens ≤ s.numPromptTokens then 0 else s.numTokens - s.numPromptTokens

/-- `Sequence::num_tokens_in_kv_cache` / `num_kv_cache_tokens()` for the
scheduler's engine (LLM, index 0). -/
def Sequence.numTokensInKvCacheLLM (s : Sequence) : Nat := s.kvCachePos.1

/-- `Sequence::tokens_in_kv_cache` (sequence.h): with speculative decoding
the two cursors may be out of sync by at most one; take the SSM cursor
when the difference is at most one, otherwise the LLM cursor. -/
def Sequence.tokensInKvCache (s : Sequence) : List Int :=
  let llmSize := s.kvCachePos.1
  let ssmSize := s.kvCachePos.2
  let size := if llmSize - ssmSize ≤ 1 then ssmSize else llmSize
  s.tokenIds.take size

/-- The suffix test used by stop-sequence detection
(`sequence_end_withs` in sequence.cpp): an empty suffix always matches;
otherwise the tail of `s` of the suffix's length must equal the suffix. -/
def sequenceEndWiths (s suffix : List Int) : Bool :=
  suffix.isEmpty ||
    (decide (suffix.length ≤ s.length) && decide (s.drop (s.length - suffix.length) = suffix))

/-- `Sequence::check_finished(last_token_idx)`: test, in source order,
eos, the stop-token set, the stop sequences (each gated on its last token
matching the token at `last_token_idx`), and the generated-token cap
(only when `max_tokens > 0`). Returns the finish flag and reason the C++
code stores into `is_finished_` / `finish_reason_`. -/
def Sequence.checkFinished (s : Sequence) (lastTokenIdx : Nat) : Bool × FinishReason :=
  let c := s.stoppingCriteria
  let lastTokenId := s.tokenIds.getD lastTokenIdx 0
  if ¬c.ignoreEosToken ∧ lastTokenId = c.eosTokenId then (true, .STOP)
  else if lastTokenId ∈ c.stopTokenIds then (true, .STOP)
  else if c.stopSequences.any
      (fun ss => ss.getLast? == some lastTokenId && sequenceEndWiths s.tokenIds ss) then
    (true, .STOP)
  else if 0 < c.maxTokens ∧ c.maxTokens ≤ s.numGeneratedTokens then (true, .LENGTH)
  else (false, .NONE)

/-- `Sequence::is_finished`: use the cached flag unless a token append
invalidated it, in which case re-run `check_finished` on the last token. -/
def Sequence.isFinished (s : Sequence) : Bool :=
  if ¬s.finishStatusInvalidated then s.isFinishedFlag
  else (s.checkFinished (s.tokenIds.length - 1)).1

/-- `Sequence::append_shared_blocks`: attach the blocks matched in the
prefix cache to a fresh sequence and advance both kv cursors to the
covered token count — except that a match covering the whole prompt is
backed off by one token so at least one prompt token remains to process.
Precondition in the C++ code: the sequence owns no blocks yet. -/
def Sequence.appendSharedBlocks (B : Nat) (s : Sequence) (sharedBlocks : List BlockId) :
    Sequence :=
  if sharedBlocks.isEmpty then s
  else
    let kvCachePos := sharedBlocks.length * B
    let kvCachePos := if kvCachePos = s.numPromptTokens then kvCachePos - 1 else kvCachePos
    { s with blocks := s.blocks ++ sharedBlocks, kvCachePos := (kvCachePos, kvCachePos) }

/-- `Sequence::release_blocks`: reset both kv cursors and drop the block
list. -/
def Sequence.releaseBlocks (s : Sequence) : Sequence :=
  { s with kvCachePos := (0, 0), blocks := [] }

/-- Combined state owned by the `BlockManager`: the allocator (plus
refcounts) and the prefix-cache tree. -/
structure BMState where
  alloc : AllocState
  cache : PNode
deriving Repr

/-- `BlockManager::allocate_shared_blocks`: only for a sequence that owns
no blocks (and only with the prefix cache enabled), match the sequence's
token ids against the cache and attach the cloned blocks; the retained
clones bump the reference counts. -/
def allocateSharedBlocks (enablePrefixCache : Bool) (B : Nat) (bm : BMState) (s : Sequence) :
    BMState × Sequence :=
  if enablePrefixCache && s.blocks.length = 0 then
    let sharedBlocks := (pcMatch B bm.cache s.tokenIds).1
    ({ bm with alloc := { bm.alloc with refs := sharedBlocks.foldl incRef bm.alloc.refs } },
     s.appendSharedBlocks B sharedBlocks)
  else (bm, s)

/-- `BlockManager::has_enough_blocks`: enough free blocks, or (with the
prefix cache enabled) evict the shortfall from the cache and re-check. -/
def hasEnoughBlocks (enablePrefixCache : Bool) (B : Nat) (bm : BMState) (numBlocks : Nat) :
    Bool × BMState :=
  if numBlocks ≤ bm.alloc.freeIds.length then (true, bm)
  else if ¬enablePrefixCache then (false, bm)
  else
    let nBlocksToEvict := numBlocks - bm.alloc.freeIds.length
    let res := pcEvict B bm.cache bm.alloc nBlocksToEvict
    let bm1 : BMState := { alloc := res.2.1, cache := res.1 }
    if res.2.2 < nBlocksToEvict then (false, bm1)
    else if numBlocks ≤ bm1.alloc.freeIds.length then (true, bm1)
    else (false, bm1)

/-- `BlockManager::allocate_blocks_for(sequence, num_tokens)`: first try
shared blocks, then allocate the additional blocks needed to cover
`num_tokens` tokens, evicting from the prefix cache if the allocator is
short. Returns whether the allocation succeeded, with the updated manager
state and sequence. -/
def allocateBlocksFor (enablePrefixCache : Bool) (B : Nat) (bm : BMState) (s : Sequence)
    (numTokens : Nat) : Bool × BMState × Sequence :=
  let shared := allocateSharedBlocks enablePrefixCache B bm s
  let bm1 := shared.1
  let s1 := shared.2
  let numBlocks := s1.blocks.length
  let numBlocksNeeded := (numTokens + B - 1) / B
  if numBlocksNeeded ≤ numBlocks then (true, bm1, s1)
  else
    let numAdditionalBlocks := numBlocksNeeded - numBlocks
    let enough := hasEnoughBlocks enablePrefixCache B bm1 numAdditionalBlocks
    if ¬enough.1 then (false, enough.2, s1)
    else
      let res := allocatorAllocate enough.2.alloc numAdditionalBlocks
      (true, { enough.2 with alloc := res.2 }, { s1 with blocks := s1.blocks ++ res.1 })

/-- `BlockManager::release_blocks_for(sequence)`: with the prefix cache
enabled, insert the kv-cached token prefix with the sequence's blocks into
the cache (the cache retains copies of the newly stored blocks), then drop
the sequence's handles; without it, just drop the handles. -/
def releaseBlocksFor (enablePrefixCache : Bool) (B : Nat) (bm : BMState) (s : Sequence) :
    BMState × Sequence :=
  if enablePrefixCache then
    let tokensIds := s.tokensInKvCache
    let ins := pcInsert B bm.cache tokensIds s.blocks
    let refs1 := ins.2.2.foldl incRef bm.alloc.refs
    let st := dropBlocks { freeIds := bm.alloc.freeIds, refs := refs1 } s.blocks
    ({ alloc := st, cache := ins.1 }, s.releaseBlocks)
  else
    ({ bm with alloc := dropBlocks bm.alloc s.blocks }, s.releaseBlocks)

/-- A request owning its sibling sequences (`Request`): `numSeqs` is the
target fan-out `n`, `sequences` the sequences created so far. -/
structure Request where
  sequences : List Sequence
  numSeqs : Nat
deriving Repr, DecidableEq

instance : Inhabited Request := ⟨⟨[], 1⟩⟩

/-- `Request::is_finished`: a request that still needs to create more
sibling sequences is not finished; otherwise it is finished when every
sequence is. -/
def Request.isFinished (r : Request) : Bool :=
  if r.sequences.length < r.numSeqs then false
  else r.sequences.all Sequence.isFinished

/-- `Request::should_expand_sequences`: expand exactly when fewer than
`numSeqs` sequences exist and the first sequence's kv-cached token count
has reached its prompt length. (The C++ code CHECKs that at least one
sequence exists; the unreachable empty case is mapped to `false`.) -/
def Request.shouldExpandSequences (r : Request) : Bool :=
  if r.sequences.length < r.numSeqs then
    match r.sequences.head? with
    | some firstSequence =>
      decide (firstSequence.numPromptTokens ≤ firstSequence.numTokensInKvCacheLLM)
    | none => false
  else false

/-- `ContinuousBatchingScheduler::allocate_blocks_for(sequence,
token_budget, actual_tokens)`: attach shared blocks first (so the kv
cursor is settled), clamp the target to the sequence length, compute the
actually processable token count, and allocate through the block manager.
Returns (succeeded, actual_tokens, manager state, sequence). -/
def schedulerAllocateBlocksFor (enablePrefixCache : Bool) (B : Nat) (bm : BMState)
    (s : Sequence) (tokenBudget : Nat) : Bool × Nat × BMState × Sequence :=
  let shared := if s.blocks.length = 0 then allocateSharedBlocks enablePrefixCache B bm s
    else (bm, s)
  let bm1 := shared.1
  let s1 := shared.2
  let numTokensInKvCache := s1.numTokensInKvCacheLLM
  let numTokens := min (numTokensInKvCache + tokenBudget) s1.numTokens
  let actualTokens := numTokens - numTokensInKvCache
  let res := allocateBlocksFor enablePrefixCache B bm1 s1 numTokens
  (res.1, actualTokens, res.2.1, res.2.2)

/-- Result of the per-request candidate loop inside
`build_sequence_batch`: whether every attempted sequence got its blocks,
the tentative candidates as (sequence index, actual token count) pairs,
the tokens and sequences tentatively consumed from the budgets, the
block-manager state, and the request's (possibly mutated) sequences. -/
structure CandidateResult where
  hasEnoughBlocks : Bool
  candidates : List (Nat × Nat)
  allocatedTokens : Nat
  allocatedSeqs : Nat
  bm : BMState
  sequences : List Sequence
deriving Repr

/-- The `for (Sequence& sequence : request->sequences)` loop of
`build_sequence_batch`: skip finished sequences, stop (successfully) when
a budget is exhausted, and stop reporting failure when an allocation
fails. Failed and tentatively successful allocations alike leave their
mutations on the sequences, exactly as the in-place C++ updates do. -/
def scheduleCandidates (enablePrefixCache : Bool) (B avg remTok remSeq : Nat) :
    List Sequence → Nat → Nat → Nat → BMState → CandidateResult
  | [], _, aT, aS, bm => ⟨true, [], aT, aS, bm, []⟩
  | s :: rest, idx, aT, aS, bm =>
    if s.isFinished then
      let r := scheduleCandidates enablePrefixCache B avg remTok remSeq rest (idx + 1) aT aS bm
      { r with sequences := s :: r.sequences }
    else if remTok ≤ aT ∨ remSeq ≤ aS then
      ⟨true, [], aT, aS, bm, s :: rest⟩
    else
      let tokenBudget := min avg (remTok - aT)
      let attempt := schedulerAllocateBlocksFor enablePrefixCache B bm s tokenBudget
      if ¬attempt.1 then
        ⟨false, [], aT, aS, attempt.2.2.1, attempt.2.2.2 :: rest⟩
      else
        let r := scheduleCandidates enablePrefixCache B avg remTok remSeq rest (idx + 1)
          (aT + attempt.2.1) (aS + 1) attempt.2.2.1
        { r with candidates := (idx, attempt.2.1) :: r.candidates,
                 sequences := attempt.2.2.2 :: r.sequences }

/-- `BlockManager::release_blocks_for(Request*)`: release every sequence
of the request in order. -/
def releaseBlocksForRequest (enablePrefixCache : Bool) (B : Nat) :
    List Sequence → BMState → BMState × List Sequence
  | [], bm => (bm, [])
  | s :: rest, bm =>
    let r := releaseBlocksFor enablePrefixCache B bm s
    let rr := releaseBlocksForRequest enablePrefixCache B rest r.1
    (rr.1, r.2 :: rr.2)

/-- One scheduled batch entry (`SequenceData`): which request and which
sequence of it, with the granted token budget. -/
structure SequenceData where
  reqIdx : Nat
  seqIdx : Nat
  tokenBudget : Nat
deriving Repr, DecidableEq

/-- State threaded through the fill loop of `build_sequence_batch`: the
priority queue (head = highest priority), the preemptable deque (head =
front), the request store (indexed by request id), the block-manager
state, the remaining budgets, and the batch built so far. -/
structure FillArgs where
  priorityQueue : List Nat
  preemptable : List Nat
  store : List Request
  bm : BMState
  remTok : Nat
  remSeq : Nat
  batch : List SequenceData
  requestsBatch : List Nat
deriving Repr

/-- Outcome of one iteration of the fill loop: leave the loop with the
final state, or continue with the next state. -/
inductive FillStepResult where
  | done (a : FillArgs)
  | next (a : FillArgs)
deriving Repr

/-- One iteration of the `while (!priority_queue_.empty() && ...)` fill
loop of `build_sequence_batch`: try the head request's sequences; on
success schedule it (and drop it from the front of the preemptable deque
when it sits there); on failure preempt the lowest-priority candidate
(releasing its blocks unless it is the request itself) and retry, or —
with nobody left to preempt — partially schedule the candidates collected
so far and leave the loop. -/
def fillStep (enablePrefixCache : Bool) (B avg : Nat) (a : FillArgs) : FillStepResult :=
  match a.priorityQueue with
  | [] => .done a
  | r :: rest =>
    if a.remTok = 0 ∨ a.remSeq = 0 then .done a
    else
      let req := a.store.getD r default
      let res := scheduleCandidates enablePrefixCache B avg a.remTok a.remSeq
        req.sequences 0 0 0 a.bm
      let store1 := a.store.set r { req with sequences := res.sequences }
      let sdata := res.candidates.map (fun c => SequenceData.mk r c.1 c.2)
      if res.hasEnoughBlocks then
        .next { priorityQueue := rest,
                preemptable := if a.preemptable.head? = some r then a.preemptable.tail
                  else a.preemptable,
                store := store1, bm := res.bm,
                remTok := a.remTok - res.allocatedTokens,
                remSeq := a.remSeq - res.allocatedSeqs,
                batch := a.batch ++ sdata,
                requestsBatch := a.requestsBatch ++ [r] }
      else
        match a.preemptable.getLast? with
        | some victim =>
          if victim ≠ r then
            let vreq := store1.getD victim default
            let rel := releaseBlocksForRequest enablePrefixCache B vreq.sequences res.bm
            .next ({ a with
              preemptable := a.preemptable.dropLast,
              store := store1.set victim { vreq with sequences := rel.2 },
              bm := rel.1 })
          else
            .next ({ a with
              preemptable := a.preemptable.dropLast,
              store := store1, bm := res.bm })
        | none =>
          if ¬res.candidates.isEmpty then
            .done ({ a with
              priorityQueue := rest, store := store1, bm := res.bm,
              remTok := a.remTok - res.allocatedTokens,
              remSeq := a.remSeq - res.allocatedSeqs,
              batch := a.batch ++ sdata,
              requestsBatch := a.requestsBatch ++ [r] })
          else .done ({ a with store := store1, bm := res.bm })

/-- The fill loop itself. Every continuing iteration pops either the
priority queue or the preemptable deque, so fuel
`|priority queue| + |preemptable| + 1` always runs it to completion. -/
def fillLoop (enablePrefixCache : Bool) (B avg : Nat) : Nat → FillArgs → FillArgs
  | 0, a => a
  | fuel + 1, a =>
    match fillStep enablePrefixCache B avg a with
    | .done r => r
    | .next a1 => fillLoop enablePrefixCache B avg fuel a1

/-- The budget top-up loop of `build_sequence_batch` (run only when token
budget remains): walk the batch in order, return each entry's granted
tokens to the budget, and re-allocate against the whole remaining budget;
stop on the first allocation failure or when the budget is exhausted. -/
def topUp (enablePrefixCache : Bool) (B : Nat) :
    List SequenceData → List Request → BMState → Nat →
    List SequenceData × List Request × BMState
  | [], store, bm, _ => ([], store, bm)
  | e :: rest, store, bm, remTok =>
    let remTok1 := remTok + e.tokenBudget
    let req := store.getD e.reqIdx default
    let s := req.sequences.getD e.seqIdx default
    let attempt := schedulerAllocateBlocksFor enablePrefixCache B bm s remTok1
    let store1 := store.set e.reqIdx
      { req with sequences := req.sequences.set e.seqIdx attempt.2.2.2 }
    if ¬attempt.1 then (e :: rest, store1, attempt.2.2.1)
    else
      let e1 := { e with tokenBudget := attempt.2.1 }
      let remTok2 := remTok1 - attempt.2.1
      if remTok2 = 0 then (e1 :: rest, store1, attempt.2.2.1)
      else
        let rr := topUp enablePrefixCache B rest store1 attempt.2.2.1 remTok2
        (e1 :: rr.1, rr.2.1, rr.2.2)

/-- Result of `build_sequence_batch`: the built batch, the scheduled
requests, the surviving priority queue and preemptable deque, the request
store and block-manager state, and the request finished with an
out-of-memory error by the empty-batch fallback, if any. -/
structure BuildResult where
  batch : List SequenceData
  requestsBatch : List Nat
  priorityQueue : List Nat
  preemptable : List Nat
  store : List Request
  bm : BMState
  oomFinishedRequest : Option Nat
deriving Repr

/-- `ContinuousBatchingScheduler::build_sequence_batch`, starting after
the intake/carry-over phases (so the priority queue and preemptable deque
are inputs): compute the average per-sequence budget and the initial
budgets from the two flags, run the fill loop, top up remaining token
budget, and apply the empty-batch fallback that finishes the head request
when nothing could be scheduled. -/
def buildSequenceBatch (enablePrefixCache : Bool)
    (maxTokensPerBatch maxSeqsPerBatch B : Nat)
    (pq preempt : List Nat) (store : List Request) (bm : BMState) : BuildResult :=
  let avgSequenceTokenBudget := max (maxTokensPerBatch / maxSeqsPerBatch) 1
  let remTok := max maxTokensPerBatch maxSeqsPerBatch
  let remSeq := max maxSeqsPerBatch 1
  let a := fillLoop enablePrefixCache B avgSequenceTokenBudget
    (pq.length + preempt.length + 1)
    ⟨pq, preempt, store, bm, remTok, remSeq, [], []⟩
  let adjusted :=
    if 0 < a.remTok then topUp enablePrefixCache B a.batch a.store a.bm a.remTok
    else (a.batch, a.store, a.bm)
  match adjusted.1, a.priorityQueue with
  | [], r :: rest =>
    ⟨[], a.requestsBatch, rest, a.preemptable, adjusted.2.1, adjusted.2.2, some r⟩
  | batch, pq1 =>
    ⟨batch, a.requestsBatch, pq1, a.preemptable, adjusted.2.1, adjusted.2.2, none⟩

/-- The finish-detection rule in the order the specification sentence
states it, including its unguarded clause (4): (1) eos (when not
ignored), (2) stop-token set, (3) some stop-sequence is a suffix of the
tokens, (4) the generated-token count has reached max_new_tokens. Stated
from the claim's words, to be compared against `Sequence.checkFinished`. -/
def specFinishedOrder (s : Sequence) (lastTokenIdx : Nat) : Bool × FinishReason :=
  let c := s.stoppingCriteria
  let lastTokenId := s.tokenIds.getD lastTokenIdx 0
  if ¬c.ignoreEosToken ∧ lastTokenId = c.eosTokenId then (true, .STOP)
  else if lastTokenId ∈ c.stopTokenIds then (true, .STOP)
  else if c.stopSequences.any (fun ss => sequenceEndWiths s.tokenIds ss) then (true, .STOP)
  else if c.maxTokens ≤ s.numGeneratedTokens then (true, .LENGTH)
  else (false, .NONE)

/-- The same specification-ordered chain with clause (4) guarded by
`max_new_tokens > 0`, the amendment the code forces. -/
def specFinishedOrderGuarded (s : Sequence) (lastTokenIdx : Nat) : Bool × FinishReason :=
  let c := s.stoppingCriteria
  let lastTokenId := s.tokenIds.getD lastTokenIdx 0
  if ¬c.ignoreEosToken ∧ lastTokenId = c.eosTokenId then (true, .STOP)
  else if lastTokenId ∈ c.stopTokenIds then (true, .STOP)
  else if c.stopSequences.any (fun ss => sequenceEndWiths s.tokenIds ss) then (true, .STOP)
  else if 0 < c.maxTokens ∧ c.maxTokens ≤ s.numGeneratedTokens then (true, .LENGTH)
  else (false, .NONE)

/-- Fold a list of (token ids, blocks) pairs into the cache by repeated
`PrefixCache::insert`, starting from an empty cache. -/
def insertAll (B : Nat) (ops : List (List Int × List BlockId)) : PNode :=
  ops.foldl (fun t op => (pcInsert B t op.1 op.2).1) emptyCache

/-- Sibling discipline actually maintained by `PrefixCache::insert`: any
two distinct children of one node share a common token prefix of length
less than one block (its block-aligned truncation is zero). -/
def sibsOk (B : Nat) (cs : List PNode) : Prop :=
  ∀ i j, i < cs.length → j < cs.length → i ≠ j →
    roundDown (commonPrefixLen (cs.getD i default).tokenIds (cs.getD j default).tokenIds) B = 0

/-- Structural well-formedness of the prefix-cache tree: every non-root
node has non-empty tokens covering exactly its blocks, and siblings obey
`sibsOk`. -/
inductive PCWf (B : Nat) : PNode → Prop where
  | mk {t : List Int} {b : List BlockId} {cs : List PNode} :
      (∀ c ∈ cs, c.tokenIds ≠ []) →
      (∀ c ∈ cs, c.tokenIds.length = c.blocks.length * B) →
      (∀ c ∈ cs, PCWf B c) →
      sibsOk B cs →
      PCWf B (.mk t b cs)

/-- The tree spells the token list `p` along a root path: either `p` is
empty, or `p` ends inside some child's tokens, or some child's tokens are
a prefix of `p` and the child covers the rest. -/
inductive Covers : PNode → List Int → Prop where
  | nil (n : PNode) : Covers n []
  | stop (n : PNode) (p : List Int) (i : Nat) :
      i < n.children.length → p ≠ [] →
      p.length ≤ (n.children.getD i default).tokenIds.length →
      p = (n.children.getD i default).tokenIds.take p.length →
      Covers n p
  | descend (n : PNode) (p : List Int) (i : Nat) :
      i < n.children.length →
      (n.children.getD i default).tokenIds ≠ [] →
      (n.children.getD i default).tokenIds.length ≤ p.length →
      (n.children.getD i default).tokenIds = p.take (n.children.getD i default).tokenIds.length →
      Covers (n.children.getD i default) (p.drop (n.children.getD i default).tokenIds.length) →
      Covers n p

/-- Total token grant of a built batch. -/
def batchTokenSum (batch : List SequenceData) : Nat :=
  (batch.map SequenceData.tokenBudget).sum

/-- Stopping criteria used by the concrete scenarios: cap of 10 generated
tokens, eos id -1, nothing else. -/
def exStop : StoppingCriteria := ⟨10, -1, false, [], []⟩

/-- Concrete block-manager state: block 0 caches tokens [1, 2]
(reference count 1, held only by the cache), allocator free list empty. -/
def exBM1 : BMState := ⟨⟨[], [1]⟩, .mk [] [] [.mk [1, 2] [0] []]⟩

/-- Concrete fresh sequence with the five-token prompt [1, 2, 3, 4, 5]. -/
def exSeq1 : Sequence := ⟨[1, 2, 3, 4, 5], 5, (0, 0), [], false, true, exStop⟩

/-- Concrete fresh sequence with prompt [1, 2]. -/
def exSeqA : Sequence := ⟨[1, 2], 2, (0, 0), [], false, true, exStop⟩

/-- Concrete fresh sequence with prompt [3, 4]. -/
def exSeqB : Sequence := ⟨[3, 4], 2, (0, 0), [], false, true, exStop⟩

/-- Concrete request with two fresh sequences. -/
def exReqAB : Request := ⟨[exSeqA, exSeqB], 2⟩

/-- Concrete block-manager state with an empty cache and exactly one free
block. -/
def exBMOneFree : BMState := ⟨⟨[0], [0]⟩, emptyCache⟩

/-- Concrete request holding only the fresh sequence with prompt [1, 2]. -/
def exReqA : Request := ⟨[exSeqA], 1⟩

/-- Concrete block-manager state with an empty cache and no free blocks. -/
def exBMNoFree : BMState := ⟨⟨[], [0]⟩, emptyCache⟩

/-- Concrete block-manager state whose cache holds tokens [1, 2, 3, 4] in
blocks 10 and 11; block ids up to 20 each have one live handle. -/
def exBM8 : BMState := ⟨⟨[], List.replicate 21 1⟩, (pcInsert 2 emptyCache [1, 2, 3, 4] [10, 11]).1⟩

/-- Concrete finished sequence: first two tokens kv-cached in its block
20. -/
def exSeq8 : Sequence := ⟨[1, 2], 2, (2, 2), [20], false, true, exStop⟩

/-- Concrete sequence for the finish-detection counterexample: prompt
[5], one generated token 7, and `max_tokens = 0` (no cap). -/
def exSeq7 : Sequence := ⟨[5, 7], 1, (0, 0), [], false, true, ⟨0, 1, false, [], []⟩⟩

/-- Concrete finished sequence (its single token is its eos token). -/
def exSeqFin : Sequence := ⟨[9], 1, (0, 0), [], false, true, ⟨10, 9, false, [], []⟩⟩

/-- Concrete request with one finished sequence but fan-out 2. -/
def exReqFin : Request := ⟨[exSeqFin], 2⟩

/-- If a non-empty suffix check succeeds, the suffix's last token is the
sequence's last token. -/
theorem sequenceEndWiths_getLast (s ss : List Int) (hs : s ≠ []) (hss : ss ≠ [])
    (h : sequenceEndWiths s ss = true) :
    ss.getLast? = some (s.getD (s.length - 1) 0) := by
  unfold sequenceEndWiths at h
  have hssE : ss.isEmpty = false := by simpa [List.isEmpty_iff] using hss
  rw [hssE] at h
  simp only [Bool.false_or, Bool.and_eq_true, decide_eq_true_eq] at h
  obtain ⟨hle, hdrop⟩ := h
  have h1 : 1 ≤ ss.length := by
    have := List.length_pos.mpr hss
    omega
  have h2 : 1 ≤ s.length := by
    have := List.length_pos.mpr hs
    omega
  have : ss.getLast? = ss[ss.length - 1]? := by
    rw [List.getLast?_eq_getElem?]
  rw [this, ← hdrop, List.getElem?_drop, List.length_drop]
  have harith : s.length - ss.length + (s.length - (s.length - ss.length) - 1) =
      s.length - 1 := by omega
  rw [harith, List.getD_eq_getElem?_getD]
  rcases h3 : s[s.length - 1]? with _ | v
  · have := List.getElem?_eq_none_iff.mp h3
    omega
  · simp

/-- Claim C3: for a fresh sequence whose prefix-cache match covers the
entire prompt (`matched_blocks * B = P`), attaching the shared blocks sets
both kv cursors to `P - 1` rather than `P`, so at least one prompt token
remains to be processed. -/
theorem appendSharedBlocks_entire_prompt (B : Nat) (s : Sequence)
    (sharedBlocks : List BlockId) (hB : 0 < B) (hfresh : s.blocks = [])
    (hne : sharedBlocks ≠ []) (hcov : sharedBlocks.length * B = s.numPromptTokens) :
    (s.appendSharedBlocks B sharedBlocks).kvCachePos.1 = s.numPromptTokens - 1 ∧
    (s.appendSharedBlocks B sharedBlocks).kvCachePos.2 = s.numPromptTokens - 1 ∧
    (s.appendSharedBlocks B sharedBlocks).kvCachePos.1 < s.numPromptTokens := by
  have hlen : 0 < sharedBlocks.length := List.length_pos.mpr hne
  have hP : 0 < s.numPromptTokens := by
    rw [← hcov]
    exact Nat.mul_pos hlen hB
  have hE : sharedBlocks.isEmpty = false := by simpa [List.isEmpty_iff] using hne
  simp [Sequence.appendSharedBlocks, hE, hcov]
  omega

/-- Witness for `appendSharedBlocks_entire_prompt`: block size 2, prompt
[1, 2, 3, 4], two matched shared blocks. -/
theorem appendSharedBlocks_entire_prompt_witness :
    ((⟨[1, 2, 3, 4], 4, (0, 0), [], false, true, exStop⟩ :
        Sequence).appendSharedBlocks 2 [0, 1]).kvCachePos.1 = 3 :=
  (appendSharedBlocks_entire_prompt 2 _ [0, 1] (by decide) (by decide) (by decide)
    (by decide)).1

/-- Claim C10: a request that still must create sibling sequences is never
reported finished, and sibling expansion triggers exactly when fewer than
`numSeqs` sequences exist and the first sequence's kv-cached token count
has reached its prompt length. -/
theorem request_fanout_gating (r : Request) :
    (r.sequences.length < r.numSeqs → r.isFinished = false) ∧
    (r.sequences ≠ [] →
      (r.shouldExpandSequences = true ↔
        r.sequences.length < r.numSeqs ∧
          (r.sequences.getD 0 default).numPromptTokens ≤
            (r.sequences.getD 0 default).numTokensInKvCacheLLM)) := by
  constructor
  · intro h
    simp [Request.isFinished, h]
  · intro hne
    unfold Request.shouldExpandSequences
    rcases hseq : r.sequences with _ | ⟨s, rest⟩
    · exact absurd hseq hne
    · by_cases hlt : (s :: rest).length < r.numSeqs
      · simp [hseq, hlt]
      · simp [hseq, hlt]

/-- Witness for `request_fanout_gating`: a request with one finished
sequence and fan-out 2 is not finished, and (its kv cursor having reached
the prompt length 1) it is due for sibling expansion. -/
theorem request_fanout_gating_witness :
    Request.isFinished ⟨[⟨[9], 1, (1, 1), [], true, false, exStop⟩], 2⟩ = false ∧
    Request.shouldExpandSequences ⟨[⟨[9], 1, (1, 1), [], true, false, exStop⟩], 2⟩ = true :=
  ⟨(request_fanout_gating _).1 (by decide),
   ((request_fanout_gating _).2 (by decide)).mpr (by decide)⟩

/-- Counterexample to claim C7 as stated: with `max_tokens = 0` the code's
unguarded specification clause (4) would report `Length` (any count has
reached 0), but `check_finished` requires `max_tokens > 0` and reports the
sequence unfinished. -/
theorem checkFinished_spec_order_cex :
    Sequence.checkFinished exSeq7 1 ≠ specFinishedOrder exSeq7 1 := by decide

/-- Claim C7 (amended): evaluated at the just-appended last token, with
every configured stop-sequence non-empty, `check_finished` decides finish
state and reason by exactly the specification's predicate order — with
clause (4) guarded by `max_tokens > 0`. -/
theorem any_stop_sequence_gate (s : List Int) (hne : s ≠ []) :
    ∀ l : List (List Int), (∀ ss ∈ l, ss ≠ []) →
      l.any (fun ss => ss.getLast? == some (s.getD (s.length - 1) 0) &&
        sequenceEndWiths s ss) = l.any (fun ss => sequenceEndWiths s ss)
  | [], _ => rfl
  | ss :: rest, hss => by
    have hssne : ss ≠ [] := hss ss (by simp)
    have ihh := any_stop_sequence_gate s hne rest (fun x hx => hss x (by simp [hx]))
    simp only [List.any_cons, ihh]
    rcases hEnd : sequenceEndWiths s ss with _ | _
    · simp
    · have := sequenceEndWiths_getLast s ss hne hssne hEnd
      simp [this]

/-- Claim C7 (amended): evaluated at the just-appended last token, with
every configured stop-sequence non-empty, `check_finished` decides finish
state and reason by exactly the specification's predicate order — with
clause (4) guarded by `max_tokens > 0`. -/
theorem checkFinished_spec_order (s : Sequence) (hne : s.tokenIds ≠ [])
    (hss : ∀ ss ∈ s.stoppingCriteria.stopSequences, ss ≠ []) :
    s.checkFinished (s.tokenIds.length - 1) =
      specFinishedOrderGuarded s (s.tokenIds.length - 1) := by
  have hany := any_stop_sequence_gate s.tokenIds hne s.stoppingCriteria.stopSequences hss
  simp only [Sequence.checkFinished, specFinishedOrderGuarded]
  rw [hany]

/-- Witness for `checkFinished_spec_order`: a sequence whose appended
token is its eos token takes clause (1) and stops. -/
theorem checkFinished_spec_order_witness :
    Sequence.checkFinished ⟨[5, 7], 1, (0, 0), [], false, true, ⟨10, 7, false, [], [[9]]⟩⟩ 1 =
      specFinishedOrderGuarded ⟨[5, 7], 1, (0, 0), [], false, true, ⟨10, 7, false, [], [[9]]⟩⟩ 1 :=
  checkFinished_spec_order _ (by decide) (by decide)

/-- Counterexample to claim C1 as stated: with block size 2, a cache
holding blocks for tokens [1, 2] and an empty free list, allocating for a
fresh five-token sequence fails — yet the failed call has already
attached the matched shared block and advanced the kv cursor, so the
sequence is not left as it was. -/
theorem allocateBlocksFor_atomicity_cex :
    (allocateBlocksFor true 2 exBM1 exSeq1 5).1 = false ∧
    (allocateBlocksFor true 2 exBM1 exSeq1 5).2.2 ≠ exSeq1 ∧
    (allocateBlocksFor true 2 exBM1 exSeq1 5).2.2.blocks ≠ exSeq1.blocks ∧
    (allocateBlocksFor true 2 exBM1 exSeq1 5).2.2.kvCachePos ≠ exSeq1.kvCachePos := by
  decide

/-- Claim C1 (amended): when `allocate_blocks_for` fails, the sequence is
exactly the result of the initial `allocate_shared_blocks` step — no
freshly allocated blocks are attached; in particular a sequence that
already owned at least one block is left exactly as it was. -/
theorem allocateBlocksFor_failure_leaves_shared_only (enablePrefixCache : Bool) (B : Nat)
    (bm : BMState) (s : Sequence) (numTokens : Nat)
    (hfail : (allocateBlocksFor enablePrefixCache B bm s numTokens).1 = false) :
    (allocateBlocksFor enablePrefixCache B bm s numTokens).2.2 =
      (allocateSharedBlocks enablePrefixCache B bm s).2 ∧
    (s.blocks ≠ [] →
      (allocateBlocksFor enablePrefixCache B bm s numTokens).2.2 = s) := by
  have hshared : s.blocks ≠ [] → (allocateSharedBlocks enablePrefixCache B bm s).2 = s := by
    intro hb
    have : s.blocks.length ≠ 0 := by
      simpa [List.length_eq_zero] using hb
    simp [allocateSharedBlocks, this]
  unfold allocateBlocksFor
  by_cases h1 : (numTokens + B - 1) / B ≤ (allocateSharedBlocks enablePrefixCache B bm s).2.blocks.length
  · simp only [h1, if_pos] at hfail ⊢
    unfold allocateBlocksFor at hfail
    simp only [h1, if_pos] at hfail
    exact absurd hfail (by simp)
  · simp only [h1, if_neg, if_false]
    by_cases h2 : (hasEnoughBlocks enablePrefixCache B (allocateSharedBlocks enablePrefixCache B bm s).1
        ((numTokens + B - 1) / B - (allocateSharedBlocks enablePrefixCache B bm s).2.blocks.length)).1
    · unfold allocateBlocksFor at hfail
      simp only [h1, if_neg, if_false, h2] at hfail
      simp at hfail
    · simp only [h2]
      refine ⟨by simp, fun hb => by simp [hshared hb]⟩

/-- Witness for `allocateBlocksFor_failure_leaves_shared_only` at the
concrete failing state. -/
theorem allocateBlocksFor_failure_leaves_shared_only_witness :
    (allocateBlocksFor true 2 exBM1 exSeq1 5).2.2 =
      (allocateSharedBlocks true 2 exBM1 exSeq1).2 :=
  (allocateBlocksFor_failure_leaves_shared_only true 2 exBM1 exSeq1 5 (by decide)).1

/-- When every block of a list is shared, the leading-shared count is the
whole list. -/
theorem countSharedStart_all_shared (refs : List Nat) :
    ∀ bs : List BlockId, (∀ b ∈ bs, 1 < refs.getD b 0) →
      countSharedStart refs bs = bs.length
  | [], _ => rfl
  | b :: bs, h => by
    have hb : 1 < refs.getD b 0 := h b (by simp)
    have ih := countSharedStart_all_shared refs bs (fun x hx => h x (by simp [hx]))
    unfold countSharedStart
    rw [if_pos hb, ih]
    simp

mutual
/-- One `evict_helper` round over a forest whose blocks are all shared
evicts nothing and leaves the allocator state unchanged. -/
theorem evictChildren_all_shared (B : Nat) :
    ∀ (cs : List PNode) (st : AllocState) (rem : Nat),
      (∀ id ∈ cacheBlocksList cs, 1 < st.refs.getD id 0) →
      (evictChildren B cs st rem).2.2 = 0 ∧ (evictChildren B cs st rem).2.1 = st
  | [], st, rem, _ => by simp [evictChildren]
  | c :: cs, st, rem, h => by
    have hc : ∀ id ∈ cacheBlocks c, 1 < st.refs.getD id 0 := by
      intro id hid
      exact h id (by simp [cacheBlocksList, hid])
    have hcs : ∀ id ∈ cacheBlocksList cs, 1 < st.refs.getD id 0 := by
      intro id hid
      exact h id (by simp [cacheBlocksList, hid])
    have hcb : ∀ id ∈ c.blocks, 1 < st.refs.getD id 0 := by
      intro id hid
      apply hc
      rcases c with ⟨t, b, cc⟩
      simp [cacheBlocks, PNode.blocks] at hid ⊢
      exact Or.inl hid
    by_cases hrem : rem = 0
    · simp [evictChildren, hrem]
    · by_cases hleaf : c.children.isEmpty
      · have hcount := countSharedStart_all_shared st.refs c.blocks hcb
        by_cases hlen : c.blocks.length = 0
        · have ih := evictChildren_all_shared B cs st (rem - min rem (c.blocks.length - countSharedStart st.refs c.blocks)) hcs
          have hblocks : c.blocks = [] := List.length_eq_zero.mp hlen
          simp [evictChildren, hrem, hleaf, hcount, hblocks, dropBlocks] at ih ⊢
          exact ih
        · have ih := evictChildren_all_shared B cs st rem hcs
          simp [evictChildren, hrem, hleaf, hcount, Ne.symm hlen] at ih ⊢
          exact ih
      · have hcc : ∀ id ∈ cacheBlocksList c.children, 1 < st.refs.getD id 0 := by
          intro id hid
          apply hc
          rcases c with ⟨t, b, cc⟩
          simp [cacheBlocks, PNode.children] at hid ⊢
          exact Or.inr hid
        have ihn := evictNode_all_shared B c st rem hcc
        have ih := evictChildren_all_shared B cs st (rem - (evictNode B c st rem).2.2) hcs
        simp [evictChildren, hrem, hleaf, ihn.1, ihn.2] at ih ⊢
        exact ih

/-- Same statement for one node. -/
theorem evictNode_all_shared (B : Nat) :
    ∀ (n : PNode) (st : AllocState) (rem : Nat),
      (∀ id ∈ cacheBlocksList n.children, 1 < st.refs.getD id 0) →
      (evictNode B n st rem).2.2 = 0 ∧ (evictNode B n st rem).2.1 = st
  | .mk t b cs, st, rem, h => by
    have ih := evictChildren_all_shared B cs st rem (by simpa [PNode.children] using h)
    simp [evictNode, ih.1, ih.2]
end

/-- Claim C6: `PrefixCache::evict` reclaims only unshared blocks; in
particular, when every block held by the cache is shared, `evict(n)`
returns 0 for every `n`. -/
theorem pcEvict_all_shared (B n : Nat) (root : PNode) (st : AllocState)
    (h : ∀ id ∈ cacheBlocksList root.children, 1 < st.refs.getD id 0) :
    (pcEvict B root st n).2.2 = 0 := by
  have hn := evictNode_all_shared B root st n h
  unfold pcEvict evictLoop
  by_cases h0 : n = 0
  · simp [h0]
  · simp [h0, hn.1]

/-- Witness for `pcEvict_all_shared`: a cache holding one block with
reference count 2 (positive cached-block count) yields zero evictions. -/
theorem pcEvict_all_shared_witness :
    0 < cacheNumBlocks (PNode.mk [] [] [PNode.mk [1, 2] [0] []]) ∧
    (pcEvict 2 (PNode.mk [] [] [PNode.mk [1, 2] [0] []]) ⟨[], [2]⟩ 5).2.2 = 0 :=
  ⟨by decide, pcEvict_all_shared 2 5 _ _ (by decide)⟩

/-- Rounding down never increases. -/
theorem roundDown_le (n B : Nat) : roundDown n B ≤ n :=
  Nat.div_mul_le_self n B

/-- Rounding down is monotone. -/
theorem roundDown_mono {m n : Nat} (B : Nat) (h : m ≤ n) : roundDown m B ≤ roundDown n B :=
  Nat.mul_le_mul_right B (Nat.div_le_div_right h)

/-- The block size divides any rounded-down value. -/
theorem dvd_roundDown (n B : Nat) : B ∣ roundDown n B :=
  Dvd.intro_left (n / B) rfl

/-- A multiple of the block size rounds down to itself. -/
theorem roundDown_eq_self {n B : Nat} (h : B ∣ n) : roundDown n B = n :=
  Nat.div_mul_cancel h

/-- A positive rounded-down value is at least one block. -/
theorem le_roundDown_of_pos {n B : Nat} (h : 0 < roundDown n B) : B ≤ roundDown n B := by
  unfold roundDown at *
  rcases Nat.eq_zero_or_pos (n / B) with h0 | h0
  · rw [h0] at h
    simp at h
  · calc B = 1 * B := (Nat.one_mul B).symm
    _ ≤ n / B * B := Nat.mul_le_mul_right B h0

/-- An aligned lower bound survives rounding down. -/
theorem le_roundDown_of_aligned {m n B : Nat} (hm : B ∣ m) (h : m ≤ n) :
    m ≤ roundDown n B := by
  rcases Nat.eq_zero_or_pos B with hB | hB
  · subst hB
    rcases hm with ⟨k, hk⟩
    simp [hk]
  · obtain ⟨k, hk⟩ := hm
    subst hk
    unfold roundDown
    rw [Nat.mul_comm B k]
    apply Nat.mul_le_mul_right
    refine (Nat.le_div_iff_mul_le hB).mpr ?_
    rw [Nat.mul_comm]
    exact h

/-- The common prefix is symmetric. -/
theorem commonPrefixLen_comm : ∀ a b : List Int, commonPrefixLen a b = commonPrefixLen b a
  | [], [] => rfl
  | [], _ :: _ => rfl
  | _ :: _, [] => rfl
  | a :: as, b :: bs => by
    unfold commonPrefixLen
    by_cases h : a = b
    · simp [h, commonPrefixLen_comm as bs]
    · simp [h, Ne.symm h]

/-- The common prefix is bounded by the first list's length. -/
theorem commonPrefixLen_le_left : ∀ a b : List Int, commonPrefixLen a b ≤ a.length
  | [], _ => by simp [commonPrefixLen]
  | _ :: _, [] => by simp [commonPrefixLen]
  | a :: as, b :: bs => by
    unfold commonPrefixLen
    by_cases h : a = b
    · simpa [h] using commonPrefixLen_le_left as bs
    · simp [h]

/-- The common prefix is bounded by the second list's length. -/
theorem commonPrefixLen_le_right (a b : List Int) : commonPrefixLen a b ≤ b.length := by
  rw [commonPrefixLen_comm]
  exact commonPrefixLen_le_left b a

/-- Up to the common prefix length, the two lists agree. -/
theorem take_take_of_commonPrefixLen :
    ∀ (a b : List Int) (m : Nat), m ≤ commonPrefixLen a b → a.take m = b.take m
  | _, _, 0, _ => by simp
  | [], b, m + 1, h => by simp [commonPrefixLen] at h
  | _ :: _, [], m + 1, h => by simp [commonPrefixLen] at h
  | a :: as, b :: bs, m + 1, h => by
    unfold commonPrefixLen at h
    by_cases hab : a = b
    · rw [if_pos hab] at h
      have := take_take_of_commonPrefixLen as bs m (by omega)
      simp [List.take_succ_cons, hab, this]
    · simp [hab] at h

/-- Conversely, agreement up to `m` (within both lengths) bounds the
common prefix length from below. -/
theorem le_commonPrefixLen_of_take :
    ∀ (a b : List Int) (m : Nat), m ≤ a.length → m ≤ b.length → a.take m = b.take m →
      m ≤ commonPrefixLen a b
  | _, _, 0, _, _, _ => Nat.zero_le _
  | [], _, m + 1, ha, _, _ => by simp at ha
  | _ :: _, [], m + 1, _, hb, _ => by simp at hb
  | a :: as, b :: bs, m + 1, ha, hb, h => by
    simp only [List.take_succ_cons, List.cons.injEq] at h
    unfold commonPrefixLen
    rw [if_pos h.1]
    have := le_commonPrefixLen_of_take as bs m (by simpa using ha) (by simpa using hb) h.2
    omega

/-- Truncating the first argument cannot lengthen the common prefix. -/
theorem commonPrefixLen_take_le (p : Nat) :
    ∀ a b : List Int, commonPrefixLen (a.take p) b ≤ commonPrefixLen a b := by
  intro a b
  rcases Nat.le_total (commonPrefixLen (a.take p) b) (commonPrefixLen a b) with h | h
  · exact h
  · set m := commonPrefixLen (a.take p) b with hm
    have h1 : m ≤ (a.take p).length := commonPrefixLen_le_left _ _
    have h2 : m ≤ b.length := commonPrefixLen_le_right _ _
    have h3 : (a.take p).take m = b.take m := take_take_of_commonPrefixLen _ _ m (le_refl m)
    have h4 : a.take m = (a.take p).take m := by
      rw [List.take_take]
      congr 1
      have : (a.take p).length ≤ p := by simp
      omega
    have h5 : m ≤ a.length := by
      have : (a.take p).length ≤ a.length := by simp
      omega
    exact le_commonPrefixLen_of_take a b m h5 h2 (h4.trans h3)

/-- Two lists sharing a long common prefix with a third share it with each
other. -/
theorem commonPrefixLen_trans {x y z : List Int} {m : Nat}
    (hx : m ≤ commonPrefixLen x z) (hy : m ≤ commonPrefixLen y z) :
    m ≤ commonPrefixLen x y := by
  have h1 : x.take m = z.take m := take_take_of_commonPrefixLen _ _ m hx
  have h2 : y.take m = z.take m := take_take_of_commonPrefixLen _ _ m hy
  have hxl : m ≤ x.length := le_trans hx (commonPrefixLen_le_left _ _)
  have hyl : m ≤ y.length := le_trans hy (commonPrefixLen_le_left _ _)
  exact le_commonPrefixLen_of_take x y m hxl hyl (h1.trans h2.symm)

/-- `getD` after `set` at the written index. -/
theorem getD_set_self {α : Type} (l : List α) (i : Nat) (x d : α) (h : i < l.length) :
    (l.set i x).getD i d = x := by
  rw [List.getD_eq_getElem?_getD, List.getElem?_set_self h]
  rfl

/-- `getD` after `set` at a different index. -/
theorem getD_set_of_ne {α : Type} (l : List α) {i j : Nat} (x d : α) (h : i ≠ j) :
    (l.set i x).getD j d = l.getD j d := by
  rw [List.getD_eq_getElem?_getD, List.getElem?_set_ne h, ← List.getD_eq_getElem?_getD]

/-- An in-range `getD` is a member. -/
theorem getD_mem {α : Type} (l : List α) (i : Nat) (d : α) (h : i < l.length) :
    l.getD i d ∈ l := by
  rw [List.getD_eq_getElem?_getD, List.getElem?_eq_getElem h]
  exact List.getElem_mem h

/-- If the child scan finds nothing, every child's block-aligned common
prefix with the query is zero. -/
theorem findChild_none (B : Nat) :
    ∀ (cs : List PNode) (toks : List Int), findChild B cs toks = none →
      ∀ c ∈ cs, roundDown (commonPrefixLen toks c.tokenIds) B = 0
  | [], _, _ => by simp
  | c0 :: cs, toks, h => by
    simp only [findChild] at h
    by_cases hc : 0 < roundDown (commonPrefixLen toks c0.tokenIds) B
    · rw [if_pos hc] at h
      simp at h
    · rw [if_neg hc] at h
      rcases hrec : findChild B cs toks with _ | ⟨i, c', pl'⟩
      · intro x hx
        rcases List.mem_cons.mp hx with rfl | hx
        · omega
        · exact findChild_none B cs toks hrec x hx
      · rw [hrec] at h
        simp at h

/-- What a successful child scan returns: the position is in range, the
child sits at that position, and the prefix length is the positive
block-aligned common prefix with that child. -/
theorem findChild_some (B : Nat) :
    ∀ (cs : List PNode) (toks : List Int) (i : Nat) (c : PNode) (pl : Nat),
      findChild B cs toks = some (i, c, pl) →
      i < cs.length ∧ cs.getD i default = c ∧
        pl = roundDown (commonPrefixLen toks c.tokenIds) B ∧ 0 < pl
  | [], toks, i, c, pl, h => by simp [findChild] at h
  | c0 :: cs, toks, i, c, pl, h => by
    simp only [findChild] at h
    by_cases hc : 0 < roundDown (commonPrefixLen toks c0.tokenIds) B
    · rw [if_pos hc] at h
      simp only [Option.some.injEq, Prod.mk.injEq] at h
      obtain ⟨rfl, rfl, rfl⟩ := h
      exact ⟨by simp, by simp, rfl, hc⟩
    · rw [if_neg hc] at h
      rcases hrec : findChild B cs toks with _ | ⟨i', c', pl'⟩
      · rw [hrec] at h
        simp at h
      · rw [hrec] at h
        simp only [Option.some.injEq, Prod.mk.injEq] at h
        obtain ⟨rfl, rfl, rfl⟩ := h
        have ih := findChild_some B cs toks i' c' pl' hrec
        refine ⟨by simp; omega, ?_, ih.2.2.1, ih.2.2.2⟩
        rw [List.getD_cons_succ]
        exact ih.2.1

/-- If some child has a positive block-aligned common prefix with the
query, the scan finds a child. -/
theorem findChild_isSome (B : Nat) :
    ∀ (cs : List PNode) (toks : List Int) (i : Nat),
      i < cs.length → 0 < roundDown (commonPrefixLen toks (cs.getD i default).tokenIds) B →
      (findChild B cs toks).isSome = true
  | [], _, i, hi, _ => by simp at hi
  | c0 :: cs, toks, i, hi, hpos => by
    simp only [findChild]
    by_cases hc : 0 < roundDown (commonPrefixLen toks c0.tokenIds) B
    · rw [if_pos hc]
      rfl
    · rw [if_neg hc]
      rcases i with _ | i'
      · rw [List.getD_cons_zero] at hpos
        omega
      · rw [List.getD_cons_succ] at hpos
        have ih := findChild_isSome B cs toks i' (by simpa using hi) hpos
        rcases hrec : findChild B cs toks with _ | ⟨i'', c'', pl''⟩
        · rw [hrec] at ih
          simp at ih
        · rfl

/-- `insertAux` never changes the tokens or blocks of the node it is
called on (only its children). -/
theorem insertAux_preserves_node (B : Nat) :
    ∀ (fuel : Nat) (node : PNode) (toks : List Int) (blks : List BlockId),
      (insertAux B fuel node toks blks).1.tokenIds = node.tokenIds ∧
      (insertAux B fuel node toks blks).1.blocks = node.blocks
  | 0, node, _, _ => ⟨rfl, rfl⟩
  | fuel + 1, node, toks, blks => by
    simp only [insertAux]
    by_cases hE : toks.isEmpty
    · simp [hE]
    · simp only [hE, Bool.false_eq_true, if_false]
      rcases hfind : findChild B node.children toks with _ | ⟨i, c, pl⟩
      · simp [PNode.tokenIds, PNode.blocks]
      · simp [PNode.tokenIds, PNode.blocks]

/-- A singleton child list trivially satisfies the sibling discipline. -/
theorem sibsOk_singleton (B : Nat) (c : PNode) : sibsOk B [c] := by
  intro i j hi hj hij
  simp at hi hj
  omega

/-- The empty child list trivially satisfies the sibling discipline. -/
theorem sibsOk_nil (B : Nat) : sibsOk B [] := by
  intro i j hi
  simp at hi

/-- Appending a node that shares less than a block with every present
child preserves the sibling discipline. -/
theorem sibsOk_append_single {B : Nat} {cs : List PNode} {x : PNode}
    (hs : sibsOk B cs)
    (hx : ∀ j, j < cs.length →
      roundDown (commonPrefixLen x.tokenIds (cs.getD j default).tokenIds) B = 0) :
    sibsOk B (cs ++ [x]) := by
  intro i j hi hj hij
  rw [List.length_append, List.length_singleton] at hi hj
  by_cases hii : i < cs.length
  · by_cases hjj : j < cs.length
    · rw [List.getD_append _ _ _ _ hii, List.getD_append _ _ _ _ hjj]
      exact hs i j hii hjj hij
    · have hj' : j = cs.length := by omega
      rw [List.getD_append _ _ _ _ hii, List.getD_append_right _ _ _ _ (by omega), hj']
      simp only [Nat.sub_self, List.getD_cons_zero]
      rw [commonPrefixLen_comm]
      exact hx i hii
  · have hi' : i = cs.length := by omega
    have hjj : j < cs.length := by omega
    rw [List.getD_append_right _ _ _ _ (by omega), hi', List.getD_append _ _ _ _ hjj]
    simp only [Nat.sub_self, List.getD_cons_zero]
    exact hx j hjj

/-- Replacing a child by one whose tokens share no longer common prefix
with anything preserves the sibling discipline. -/
theorem sibsOk_set {B : Nat} {cs : List PNode} {i : Nat} {x : PNode}
    (hs : sibsOk B cs) (hi : i < cs.length)
    (hle : ∀ y, commonPrefixLen x.tokenIds y ≤
      commonPrefixLen (cs.getD i default).tokenIds y) :
    sibsOk B (cs.set i x) := by
  intro i' j' hi' hj' hij
  rw [List.length_set] at hi' hj'
  by_cases hii : i' = i
  · subst hii
    rw [getD_set_self _ _ _ _ hi, getD_set_of_ne _ _ _ (by omega)]
    have h0 := hs i' j' hi' hj' hij
    have hmono := roundDown_mono B (hle (cs.getD j' default).tokenIds)
    omega
  · by_cases hjj : j' = i
    · subst hjj
      rw [getD_set_self _ _ _ _ hi, getD_set_of_ne _ _ _ (by omega)]
      have h0 := hs i' j' hi' hj' hij
      rw [commonPrefixLen_comm]
      have hcm : commonPrefixLen (cs.getD j' default).tokenIds (cs.getD i' default).tokenIds =
          commonPrefixLen (cs.getD i' default).tokenIds (cs.getD j' default).tokenIds :=
        commonPrefixLen_comm _ _
      have hmono := roundDown_mono B (hle (cs.getD i' default).tokenIds)
      rw [hcm] at hmono
      omega
    · rw [getD_set_of_ne _ _ _ (by omega), getD_set_of_ne _ _ _ (by omega)]
      exact hs i' j' hi' hj' hij

/-- Accessors for the components of a well-formed node. -/
theorem PCWf.parts {B : Nat} {n : PNode} (h : PCWf B n) :
    (∀ c ∈ n.children, c.tokenIds ≠ []) ∧
    (∀ c ∈ n.children, c.tokenIds.length = c.blocks.length * B) ∧
    (∀ c ∈ n.children, PCWf B c) ∧ sibsOk B n.children := by
  rcases n with ⟨t, b, cs⟩
  cases h with
  | mk h1 h2 h3 h4 => exact ⟨h1, h2, h3, h4⟩

/-- Projection of a constructed node: tokens. -/
@[simp] theorem PNode.tokenIds_mk (t : List Int) (b : List BlockId) (c : List PNode) :
    (PNode.mk t b c).tokenIds = t := rfl

/-- Projection of a constructed node: blocks. -/
@[simp] theorem PNode.blocks_mk (t : List Int) (b : List BlockId) (c : List PNode) :
    (PNode.mk t b c).blocks = b := rfl

/-- Projection of a constructed node: children. -/
@[simp] theorem PNode.children_mk (t : List Int) (b : List BlockId) (c : List PNode) :
    (PNode.mk t b c).children = c := rfl

/-- `split_node` at a positive aligned length strictly inside the node
produces a well-formed node whose tokens are the prefix kept in place. -/
theorem splitNode_wf {B : Nat} {c : PNode} {pl : Nat} (hwf : PCWf B c)
    (halign : c.tokenIds.length = c.blocks.length * B)
    (hdvd : B ∣ pl) (hpos : 0 < pl) (hlt : pl < c.tokenIds.length) :
    PCWf B (splitNode B c pl) ∧
    (splitNode B c pl).tokenIds = c.tokenIds.take pl ∧
    (splitNode B c pl).tokenIds ≠ [] ∧
    (splitNode B c pl).tokenIds.length = (splitNode B c pl).blocks.length * B := by
  have hB : 0 < B := by
    rcases Nat.eq_zero_or_pos B with h0 | h0
    · subst h0
      obtain ⟨k, hk⟩ := hdvd
      simp at hk
      omega
    · exact h0
  have hk : pl / B * B = pl := Nat.div_mul_cancel hdvd
  obtain ⟨hne, hal, hwfc, hsibs⟩ := hwf.parts
  rcases c with ⟨ct, cb, cc⟩
  simp only [PNode.tokenIds_mk, PNode.blocks_mk, PNode.children_mk] at *
  have hkb : pl / B ≤ cb.length := by
    have h1 : pl ≤ cb.length * B := by omega
    have h2 : pl / B ≤ cb.length * B / B := Nat.div_le_div_right h1
    rwa [Nat.mul_div_cancel _ hB] at h2
  have htail : (ct.drop pl).length = (cb.drop (pl / B)).length * B := by
    simp only [List.length_drop]
    have e1 : (cb.length - pl / B) * B = cb.length * B - pl / B * B := Nat.sub_mul _ _ _
    rw [e1, hk, ← halign]
  have hwfs : PCWf B (splitNode B (.mk ct cb cc) pl) := by
    unfold splitNode
    simp only [PNode.tokenIds_mk, PNode.blocks_mk, PNode.children_mk]
    refine PCWf.mk ?_ ?_ ?_ (sibsOk_singleton B _)
    · intro x hx
      rcases List.mem_singleton.mp hx with rfl
      simp only [PNode.tokenIds_mk, ne_eq, List.drop_eq_nil_iff]
      omega
    · intro x hx
      rcases List.mem_singleton.mp hx with rfl
      simpa using htail
    · intro x hx
      rcases List.mem_singleton.mp hx with rfl
      exact PCWf.mk hne hal hwfc hsibs
  refine ⟨hwfs, by simp [splitNode], ?_, ?_⟩
  · simp only [splitNode, PNode.tokenIds_mk, ne_eq, List.take_eq_nil_iff]
    push_neg
    exact ⟨by omega, by intro hc; rw [hc] at hlt; simp at hlt⟩
  · simp only [splitNode, PNode.tokenIds_mk, PNode.blocks_mk, List.length_take]
    have h1 : min pl ct.length = pl := by omega
    have h2 : min (pl / B) cb.length = pl / B := by omega
    rw [h1, h2, hk]

/-- `insert`'s tree walk preserves well-formedness of the cache tree. -/
theorem insertAux_wf (B : Nat) :
    ∀ (fuel : Nat) (toks : List Int) (blks : List BlockId) (node : PNode),
      PCWf B node → toks.length = blks.length * B →
      PCWf B (insertAux B fuel node toks blks).1
  | 0, _, _, _, hwf, _ => hwf
  | fuel + 1, toks, blks, node, hwf, halign => by
    rcases node with ⟨t, b, cs⟩
    obtain ⟨hne, hal, hwfc, hsibs⟩ := hwf.parts
    simp only [PNode.children_mk] at hne hal hwfc hsibs
    simp only [insertAux, PNode.children_mk, PNode.tokenIds_mk, PNode.blocks_mk]
    by_cases hE : toks.isEmpty
    · simpa [hE] using hwf
    · simp only [hE, Bool.false_eq_true, if_false]
      have htne : toks ≠ [] := by simpa [List.isEmpty_iff] using hE
      rcases hfind : findChild B cs toks with _ | ⟨i, c, pl⟩
      · refine PCWf.mk ?_ ?_ ?_ ?_
        · intro x hx
          rcases List.mem_append.mp hx with hx | hx
          · exact hne x hx
          · rcases List.mem_singleton.mp hx with rfl
            simpa using htne
        · intro x hx
          rcases List.mem_append.mp hx with hx | hx
          · exact hal x hx
          · rcases List.mem_singleton.mp hx with rfl
            simpa using halign
        · intro x hx
          rcases List.mem_append.mp hx with hx | hx
          · exact hwfc x hx
          · rcases List.mem_singleton.mp hx with rfl
            exact PCWf.mk (by simp) (by simp) (by simp) (by simpa using sibsOk_nil B)
        · refine sibsOk_append_single hsibs ?_
          intro j hj
          simpa using findChild_none B cs toks hfind _ (getD_mem cs j default hj)
      · obtain ⟨hi, hgetD, hpl, hpos⟩ := findChild_some B cs toks i c pl hfind
        have hB : 0 < B := by
          rcases Nat.eq_zero_or_pos B with h0 | h0
          · subst h0
            rw [hpl] at hpos
            simp [roundDown] at hpos
          · exact h0
        have hdvd : B ∣ pl := by
          rw [hpl]
          exact dvd_roundDown _ _
        have hplc : pl ≤ c.tokenIds.length := by
          rw [hpl]
          exact le_trans (roundDown_le _ _) (commonPrefixLen_le_right _ _)
        have hplt : pl ≤ toks.length := by
          rw [hpl]
          exact le_trans (roundDown_le _ _) (commonPrefixLen_le_left _ _)
        have hcmem : c ∈ cs := by
          rw [← hgetD]
          exact getD_mem cs i default hi
        have hcne := hne c hcmem
        have hcal := hal c hcmem
        have hcwf := hwfc c hcmem
        have hk : pl / B * B = pl := Nat.div_mul_cancel hdvd
        have halign2 : (toks.drop pl).length = (blks.drop (pl / B)).length * B := by
          have hkb : pl / B ≤ blks.length := by
            have h1 : pl ≤ blks.length * B := by omega
            have h2 : pl / B ≤ blks.length * B / B := Nat.div_le_div_right h1
            rwa [Nat.mul_div_cancel _ hB] at h2
          simp only [List.length_drop]
          have e1 : (blks.length - pl / B) * B = blks.length * B - pl / B * B :=
            Nat.sub_mul _ _ _
          rw [e1, hk, ← halign]
        dsimp only
        by_cases hsplit : pl < c.tokenIds.length
        · rw [if_pos hsplit]
          obtain ⟨h1wf, h1tok, h1ne, h1al⟩ := splitNode_wf hcwf hcal hdvd hpos hsplit
          have hrec := insertAux_wf B fuel (toks.drop pl) (blks.drop (pl / B)) _ h1wf halign2
          have hpres := insertAux_preserves_node B fuel (splitNode B c pl) (toks.drop pl)
            (blks.drop (pl / B))
          refine PCWf.mk ?_ ?_ ?_ ?_
          · intro x hx
            rcases List.mem_or_eq_of_mem_set hx with hx | rfl
            · exact hne x hx
            · rw [hpres.1]
              exact h1ne
          · intro x hx
            rcases List.mem_or_eq_of_mem_set hx with hx | rfl
            · exact hal x hx
            · rw [hpres.1, hpres.2]
              exact h1al
          · intro x hx
            rcases List.mem_or_eq_of_mem_set hx with hx | rfl
            · exact hwfc x hx
            · exact hrec
          · refine sibsOk_set hsibs hi ?_
            intro y
            rw [hgetD, hpres.1, h1tok]
            exact commonPrefixLen_take_le pl c.tokenIds y
        · rw [if_neg hsplit]
          have hrec := insertAux_wf B fuel (toks.drop pl) (blks.drop (pl / B)) c hcwf halign2
          have hpres := insertAux_preserves_node B fuel c (toks.drop pl) (blks.drop (pl / B))
          refine PCWf.mk ?_ ?_ ?_ ?_
          · intro x hx
            rcases List.mem_or_eq_of_mem_set hx with hx | rfl
            · exact hne x hx
            · rw [hpres.1]
              exact hcne
          · intro x hx
            rcases List.mem_or_eq_of_mem_set hx with hx | rfl
            · exact hal x hx
            · rw [hpres.1, hpres.2]
              exact hcal
          · intro x hx
            rcases List.mem_or_eq_of_mem_set hx with hx | rfl
            · exact hwfc x hx
            · exact hrec
          · refine sibsOk_set hsibs hi ?_
            intro y
            rw [hgetD, hpres.1]

/-- `PrefixCache::insert` preserves well-formedness of the cache tree. -/
theorem pcInsert_wf (B : Nat) (root : PNode) (toks : List Int) (blks : List BlockId)
    (hwf : PCWf B root) : PCWf B (pcInsert B root toks blks).1 := by
  unfold pcInsert
  apply insertAux_wf B _ _ _ _ hwf
  have h1 : min (toks.length / B) blks.length ≤ toks.length / B := Nat.min_le_left _ _
  have h2 : min (toks.length / B) blks.length ≤ blks.length := Nat.min_le_right _ _
  have hnt : min (toks.length / B) blks.length * B ≤ toks.length := by
    calc min (toks.length / B) blks.length * B ≤ toks.length / B * B :=
      Nat.mul_le_mul_right B h1
    _ ≤ toks.length := Nat.div_mul_le_self _ _
  simp only [List.length_take]
  have e1 : min (min (toks.length / B) blks.length) blks.length =
      min (toks.length / B) blks.length := by omega
  have e2 : min (min (toks.length / B) blks.length * B) toks.length =
      min (toks.length / B) blks.length * B := by omega
  rw [e2, e1]

/-- The empty cache is well-formed. -/
theorem emptyCache_wf (B : Nat) : PCWf B emptyCache :=
  PCWf.mk (by simp) (by simp) (by simp) (by simpa using sibsOk_nil B)

/-- Folding inserts over a well-formed tree keeps it well-formed. -/
theorem foldl_pcInsert_wf (B : Nat) :
    ∀ (ops : List (List Int × List BlockId)) (t : PNode), PCWf B t →
      PCWf B (ops.foldl (fun t op => (pcInsert B t op.1 op.2).1) t)
  | [], _, h => h
  | op :: ops, t, h =>
    foldl_pcInsert_wf B ops _ (pcInsert_wf B t op.1 op.2 h)

/-- Claim C5 (amended): after any sequence of `insert` calls starting from
an empty cache, the tree is well-formed; in particular any two distinct
siblings share a common token prefix shorter than one block (its
block-aligned length is zero). Siblings may share up to `B - 1` leading
tokens, so the claim's "distinct first tokens" holds only for `B = 1`. -/
theorem insertAll_wf (B : Nat) (ops : List (List Int × List BlockId)) :
    PCWf B (insertAll B ops) :=
  foldl_pcInsert_wf B ops emptyCache (emptyCache_wf B)

/-- Counterexample to claim C5 as stated: with block size 2, inserting
tokens [1, 2] and then [1, 3] creates two root children that both start
with token 1 — two siblings sharing a non-empty (sub-block) prefix. -/
theorem insert_sibling_first_token_cex :
    ((insertAll 2 [([1, 2], [0]), ([1, 3], [1])]).children.map
      (fun c => c.tokenIds.head?)) = [some 1, some 1] ∧
    (insertAll 2 [([1, 2], [0]), ([1, 3], [1])]).children.map PNode.tokenIds =
      [[1, 2], [1, 3]] := by
  decide

/-- After `insert`'s walk, the tree spells the inserted (aligned) token
list along a root path. -/
theorem insertAux_covers (B : Nat) :
    ∀ (fuel : Nat) (toks : List Int) (blks : List BlockId) (node : PNode),
      toks.length ≤ fuel → Covers (insertAux B fuel node toks blks).1 toks
  | 0, toks, blks, node, hfuel => by
    have : toks = [] := List.length_eq_zero.mp (by omega)
    subst this
    exact Covers.nil _
  | fuel + 1, toks, blks, node, hfuel => by
    rcases node with ⟨t, b, cs⟩
    simp only [insertAux, PNode.children_mk, PNode.tokenIds_mk, PNode.blocks_mk]
    by_cases hE : toks.isEmpty
    · have : toks = [] := by simpa [List.isEmpty_iff] using hE
      subst this
      simp [hE]
      exact Covers.nil _
    · simp only [hE, Bool.false_eq_true, if_false]
      have htne : toks ≠ [] := by simpa [List.isEmpty_iff] using hE
      rcases hfind : findChild B cs toks with _ | ⟨i, c, pl⟩
      · refine Covers.stop _ toks cs.length ?_ htne ?_ ?_
        · simp
        · rw [PNode.children_mk, List.getD_append_right _ _ _ _ (le_refl _)]
          simp
        · rw [PNode.children_mk, List.getD_append_right _ _ _ _ (le_refl _)]
          simp
      · obtain ⟨hi, hgetD, hpl, hpos⟩ := findChild_some B cs toks i c pl hfind
        dsimp only
        have hplc : pl ≤ c.tokenIds.length := by
          rw [hpl]
          exact le_trans (roundDown_le _ _) (commonPrefixLen_le_right _ _)
        have hplt : pl ≤ toks.length := by
          rw [hpl]
          exact le_trans (roundDown_le _ _) (commonPrefixLen_le_left _ _)
        have hcomm : pl ≤ commonPrefixLen toks c.tokenIds := by
          rw [hpl]
          exact roundDown_le _ _
        have htake : toks.take pl = c.tokenIds.take pl :=
          take_take_of_commonPrefixLen _ _ pl hcomm
        set c1 := if pl < c.tokenIds.length then splitNode B c pl else c with hc1def
        have hc1tok : c1.tokenIds = toks.take pl := by
          rw [hc1def]
          by_cases hsplit : pl < c.tokenIds.length
          · rw [if_pos hsplit]
            simp [splitNode, htake]
          · rw [if_neg hsplit]
            have : pl = c.tokenIds.length := by omega
            rw [htake, this]
            simp
        have hrec := insertAux_covers B fuel (toks.drop pl) (blks.drop (pl / B)) c1
          (by simp [List.length_drop]; omega)
        have hpres := insertAux_preserves_node B fuel c1 (toks.drop pl) (blks.drop (pl / B))
        set c2 := (insertAux B fuel c1 (toks.drop pl) (blks.drop (pl / B))).1 with hc2def
        have hc2tok : c2.tokenIds = toks.take pl := by
          rw [hc2def, hpres.1, hc1tok]
        have hlen2 : c2.tokenIds.length = pl := by
          rw [hc2tok, List.length_take]
          omega
        have hi2 : i < (cs.set i c2).length := by
          rw [List.length_set]
          exact hi
        have hgd : (PNode.mk t b (cs.set i c2)).children.getD i default = c2 := by
          rw [PNode.children_mk]
          exact getD_set_self _ _ _ _ hi
        have htakene : toks.take pl ≠ [] := by
          intro hnil
          have hh := congrArg List.length hnil
          rw [List.length_take, List.length_nil] at hh
          have hlp := List.length_pos.mpr htne
          omega
        refine Covers.descend _ toks i (by simpa using hi2) ?_ ?_ ?_ ?_
        · rw [hgd, hc2tok]
          exact htakene
        · rw [hgd, hlen2]
          exact hplt
        · rw [hgd, hlen2, hc2tok]
        · rw [hgd, hlen2]
          exact hrec

/-- Under the sibling discipline, the child found by the scan is the only
child sharing at least one block with the query. -/
theorem findChild_unique (B : Nat) (cs : List PNode) (toks : List Int) (i j : Nat)
    (c' : PNode) (pl' : Nat) (hsibs : sibsOk B cs) (hi : i < cs.length)
    (hcomm : B ≤ commonPrefixLen toks (cs.getD i default).tokenIds)
    (hfind : findChild B cs toks = some (j, c', pl')) :
    j = i ∧ c' = cs.getD i default ∧ B ≤ pl' := by
  obtain ⟨hj, hgetD, hpl, hpos⟩ := findChild_some B cs toks j c' pl' hfind
  have hB : 0 < B := by
    rcases Nat.eq_zero_or_pos B with h0 | h0
    · subst h0
      rw [hpl] at hpos
      simp [roundDown] at hpos
    · exact h0
  have hBle : B ≤ pl' := by
    rw [hpl]
    exact le_roundDown_of_pos (hpl ▸ hpos)
  have hc' : B ≤ commonPrefixLen toks c'.tokenIds := by
    have h1 : pl' ≤ commonPrefixLen toks c'.tokenIds := by
      rw [hpl]
      exact roundDown_le _ _
    omega
  by_cases hij : j = i
  · subst hij
    exact ⟨rfl, hgetD.symm, hBle⟩
  · exfalso
    have h1 : B ≤ commonPrefixLen c'.tokenIds toks := by
      rw [commonPrefixLen_comm]
      exact hc'
    have h2 : B ≤ commonPrefixLen (cs.getD i default).tokenIds toks := by
      rw [commonPrefixLen_comm]
      exact hcomm
    have h3 : B ≤ commonPrefixLen (cs.getD j default).tokenIds (cs.getD i default).tokenIds := by
      rw [hgetD]
      exact commonPrefixLen_trans h1 h2
    have h4 := hsibs j i hj hi hij
    have h5 := le_roundDown_of_aligned (dvd_refl B) h3
    omega

/-- Core lower bound for `match`: if a well-formed tree spells `p` along a
root path and the query starts with `p`, the walk matches at least
`p.length` tokens. -/
theorem matchAux_ge (B : Nat) {node : PNode} {p : List Int} (hcov : Covers node p) :
    ∀ (fuel : Nat) (q : List Int), PCWf B node → 0 < B → B ∣ p.length →
      p = q.take p.length → p.length ≤ q.length → p.length ≤ fuel →
      p.length ≤ (matchAux B fuel node q).2 := by
  induction hcov with
  | nil n =>
    intro fuel q _ _ _ _ _ _
    simp
  | stop n p i hi hpne hlen htake =>
    intro fuel q hwf hB hdvd hpre hql hfuel
    have hppos : 0 < p.length := List.length_pos.mpr hpne
    have hBp : B ≤ p.length := Nat.le_of_dvd hppos hdvd
    rcases fuel with _ | f
    · omega
    have hqE : q.isEmpty = false := by
      have hqpos : 0 < q.length := by omega
      simpa [List.isEmpty_iff] using List.length_pos.mp hqpos
    have htq : q.take p.length = (n.children.getD i default).tokenIds.take p.length := by
      rw [← hpre]
      exact htake
    have hcomm : p.length ≤ commonPrefixLen q (n.children.getD i default).tokenIds :=
      le_commonPrefixLen_of_take _ _ _ hql hlen htq
    have hcommB : B ≤ commonPrefixLen q (n.children.getD i default).tokenIds := by omega
    have hrd : 0 < roundDown (commonPrefixLen q (n.children.getD i default).tokenIds) B := by
      have := le_roundDown_of_aligned (dvd_refl B) hcommB
      omega
    have hsome := findChild_isSome B n.children q i hi hrd
    rcases hfind : findChild B n.children q with _ | ⟨j, c', pl'⟩
    · rw [hfind] at hsome
      simp at hsome
    obtain ⟨hj, hc', hBpl⟩ :=
      findChild_unique B n.children q i j c' pl' hwf.parts.2.2.2 hi hcommB hfind
    obtain ⟨hjlt, hgetD, hpleq, hplpos⟩ := findChild_some B n.children q j c' pl' hfind
    have hplge : p.length ≤ pl' := by
      rw [hpleq, hc']
      exact le_roundDown_of_aligned hdvd hcomm
    simp only [matchAux, hqE, Bool.false_eq_true, if_false]
    rw [hfind]
    dsimp only
    by_cases hfull : pl' = c'.tokenIds.length
    · rw [if_pos hfull]
      dsimp only
      omega
    · rw [if_neg hfull]
      exact hplge
  | descend n p i hi hcne hclen hceq hrest ih =>
    intro fuel q hwf hB hdvd hpre hql hfuel
    have hwfp := hwf.parts
    have hmem := getD_mem n.children i default hi
    set L := (n.children.getD i default).tokenIds.length with hLdef
    have halignI : L = (n.children.getD i default).blocks.length * B := hwfp.2.1 _ hmem
    have hwfI : PCWf B (n.children.getD i default) := hwfp.2.2.1 _ hmem
    have hLpos : 0 < L := by
      rw [hLdef]
      exact List.length_pos.mpr hcne
    have hdvdL : B ∣ L :=
      ⟨(n.children.getD i default).blocks.length, by rw [Nat.mul_comm]; exact halignI⟩
    have hLB : B ≤ L := Nat.le_of_dvd hLpos hdvdL
    have hppos : 0 < p.length := by omega
    rcases fuel with _ | f
    · omega
    have hqE : q.isEmpty = false := by
      have hqpos : 0 < q.length := by omega
      simpa [List.isEmpty_iff] using List.length_pos.mp hqpos
    have e1 : (n.children.getD i default).tokenIds.take L = (n.children.getD i default).tokenIds := by
      rw [hLdef]
      exact List.take_length _
    have htq : q.take L = (n.children.getD i default).tokenIds.take L := by
      rw [e1, hceq, hpre]
      rw [List.take_take]
      congr 1
      omega
    have hcomm : L ≤ commonPrefixLen q (n.children.getD i default).tokenIds :=
      le_commonPrefixLen_of_take _ _ _ (by omega) (by omega) htq
    have hcommLe := commonPrefixLen_le_right q (n.children.getD i default).tokenIds
    have hceq2 : commonPrefixLen q (n.children.getD i default).tokenIds = L := by omega
    have hcommB : B ≤ commonPrefixLen q (n.children.getD i default).tokenIds := by omega
    have hrd : 0 < roundDown (commonPrefixLen q (n.children.getD i default).tokenIds) B := by
      have := le_roundDown_of_aligned (dvd_refl B) hcommB
      omega
    have hsome := findChild_isSome B n.children q i hi hrd
    rcases hfind : findChild B n.children q with _ | ⟨j, c', pl'⟩
    · rw [hfind] at hsome
      simp at hsome
    obtain ⟨hj, hc', hBpl⟩ :=
      findChild_unique B n.children q i j c' pl' hwf.parts.2.2.2 hi hcommB hfind
    obtain ⟨hjlt, hgetD, hpleq, hplpos⟩ := findChild_some B n.children q j c' pl' hfind
    have hplL : pl' = L := by
      rw [hpleq, hc', hceq2]
      exact roundDown_eq_self hdvdL
    have hdrop : p.drop L = (q.drop L).take (p.length - L) := by
      rw [hpre, List.drop_take]
      congr 1
      rw [hpre]
      simp only [List.length_take]
      omega
    have hrec := ih f (q.drop L) hwfI hB
      (by
        simp only [List.length_drop]
        exact Nat.dvd_sub' hdvd hdvdL)
      (by
        rw [hdrop]
        congr 1
        simp only [List.length_take, List.length_drop]
        omega)
      (by
        simp only [List.length_drop]
        omega)
      (by
        simp only [List.length_drop]
        omega)
    simp only [matchAux, hqE, Bool.false_eq_true, if_false]
    rw [hfind]
    dsimp only
    have hfull : pl' = c'.tokenIds.length := by
      rw [hc']
      exact hplL
    rw [if_pos hfull]
    dsimp only
    rw [hc', hplL]
    have hlen2 : (p.drop L).length = p.length - L := by
      simp only [List.length_drop]
    rw [hlen2] at hrec
    omega

/-- In a well-formed tree, `match` returns exactly one block per
`block_size` matched tokens. -/
theorem matchAux_blocks (B : Nat) :
    ∀ (fuel : Nat) (node : PNode) (q : List Int), PCWf B node →
      (matchAux B fuel node q).1.length * B = (matchAux B fuel node q).2
  | 0, node, q, _ => by simp [matchAux]
  | fuel + 1, node, q, hwf => by
    simp only [matchAux]
    by_cases hqE : q.isEmpty
    · simp [hqE]
    · simp only [hqE, Bool.false_eq_true, if_false]
      rcases hfind : findChild B node.children q with _ | ⟨i, c, pl⟩
      · simp
      · dsimp only
        obtain ⟨hi, hgetD, hpl, hpos⟩ := findChild_some B node.children q i c pl hfind
        have hB : 0 < B := by
          rcases Nat.eq_zero_or_pos B with h0 | h0
          · subst h0
            rw [hpl] at hpos
            simp [roundDown] at hpos
          · exact h0
        have hdvd : B ∣ pl := by
          rw [hpl]
          exact dvd_roundDown _ _
        have hk : pl / B * B = pl := Nat.div_mul_cancel hdvd
        have hcmem : c ∈ node.children := by
          rw [← hgetD]
          exact getD_mem _ _ _ hi
        have halignC := hwf.parts.2.1 c hcmem
        have hple : pl ≤ c.tokenIds.length := by
          rw [hpl]
          exact le_trans (roundDown_le _ _) (commonPrefixLen_le_right _ _)
        have hkb : pl / B ≤ c.blocks.length := by
          have h1 : pl ≤ c.blocks.length * B := by omega
          have h2 : pl / B ≤ c.blocks.length * B / B := Nat.div_le_div_right h1
          rwa [Nat.mul_div_cancel _ hB] at h2
        have hgot : (c.blocks.take (pl / B)).length = pl / B := by
          rw [List.length_take]
          omega
        by_cases hfull : pl = c.tokenIds.length
        · rw [if_pos hfull]
          dsimp only
          have ih := matchAux_blocks B fuel c (q.drop pl) (hwf.parts.2.2.1 c hcmem)
          rw [List.length_append, Nat.add_mul, hgot, hk, ih]
        · rw [if_neg hfull]
          dsimp only
          rw [hgot, hk]

/-- `PrefixCache::match` covers at least any aligned prefix the tree
spells, measured in returned blocks. -/
theorem pcMatch_ge (B : Nat) (root : PNode) (q p : List Int)
    (hwf : PCWf B root) (hcov : Covers root p) (hB : 0 < B) (hdvd : B ∣ p.length)
    (hpre : p = q.take p.length) (hlen : p.length ≤ q.length) :
    p.length ≤ (pcMatch B root q).1.length * B := by
  unfold pcMatch
  dsimp only
  have hrd : p.length ≤ roundDown q.length B := le_roundDown_of_aligned hdvd hlen
  have hpre2 : p = (q.take (roundDown q.length B)).take p.length := by
    rw [List.take_take]
    have : min p.length (roundDown q.length B) = p.length := by omega
    rw [this]
    exact hpre
  have hlen2 : p.length ≤ (q.take (roundDown q.length B)).length := by
    rw [List.length_take]
    have := roundDown_le q.length B
    omega
  have h1 := matchAux_ge B hcov (roundDown q.length B + 1) (q.take (roundDown q.length B))
    hwf hB hdvd hpre2 hlen2 (by omega)
  have h2 := matchAux_blocks B (roundDown q.length B + 1) root
    (q.take (roundDown q.length B)) hwf
  omega

/-- `PrefixCache::insert` of an aligned token list (with enough blocks)
makes the tree spell it. -/
theorem pcInsert_covers (B : Nat) (root : PNode) (toks : List Int) (blks : List BlockId)
    (hdvd : B ∣ toks.length) (hbl : toks.length / B ≤ blks.length) :
    Covers (pcInsert B root toks blks).1 toks := by
  unfold pcInsert
  have hmin : min (toks.length / B) blks.length = toks.length / B := by omega
  have hnt : toks.length / B * B = toks.length := Nat.div_mul_cancel hdvd
  simp only [hmin, hnt, List.take_length]
  exact insertAux_covers B _ toks _ root (by omega)

/-- With both kv cursors in sync at `k`, the kv-cached tokens are the
first `k` tokens. -/
theorem tokensInKvCache_sync (s : Sequence) (k : Nat) (h : s.kvCachePos = (k, k)) :
    s.tokensInKvCache = s.tokenIds.take k := by
  simp [Sequence.tokensInKvCache, h]

/-- With the prefix cache enabled, releasing a sequence turns the cache
into the insert of its kv-cached tokens and blocks. -/
theorem releaseBlocksFor_cache (B : Nat) (bm : BMState) (s : Sequence) :
    (releaseBlocksFor true B bm s).1.cache =
      (pcInsert B bm.cache s.tokensInKvCache s.blocks).1 := by
  simp [releaseBlocksFor]

/-- Claim C8 (amended): releasing a sequence whose kv-cached position `k`
is block-aligned and then matching any request sharing its first `k`
tokens yields matched blocks covering at least `k` tokens
(`matched_blocks * B ≥ k`; more may match when the cache already extends
the released prefix). -/
theorem release_match_roundtrip (B : Nat) (bm : BMState) (s : Sequence) (k : Nat)
    (q : List Int) (hB : 0 < B) (hwf : PCWf B bm.cache)
    (hkv : s.kvCachePos = (k, k)) (hdvd : B ∣ k) (hk : k ≤ s.tokenIds.length)
    (hbl : k / B ≤ s.blocks.length)
    (hq : q.take k = s.tokenIds.take k) (hql : k ≤ q.length) :
    k ≤ (pcMatch B (releaseBlocksFor true B bm s).1.cache q).1.length * B := by
  rw [releaseBlocksFor_cache, tokensInKvCache_sync s k hkv]
  have htlen : (s.tokenIds.take k).length = k := by
    rw [List.length_take]
    omega
  have hcov : Covers (pcInsert B bm.cache (s.tokenIds.take k) s.blocks).1
      (s.tokenIds.take k) :=
    pcInsert_covers B bm.cache _ s.blocks (by rw [htlen]; exact hdvd)
      (by rw [htlen]; exact hbl)
  have hwf2 : PCWf B (pcInsert B bm.cache (s.tokenIds.take k) s.blocks).1 :=
    pcInsert_wf B _ _ _ hwf
  have h := pcMatch_ge B _ q (s.tokenIds.take k) hwf2 hcov hB
    (by rw [htlen]; exact hdvd)
    (by rw [htlen]; exact hq.symm)
    (by rw [htlen]; exact hql)
  omega

/-- Counterexample to claim C8 as stated: with block size 2 and a cache
already holding tokens [1, 2, 3, 4], releasing a sequence whose kv-cached
prefix is [1, 2] (k = 2) and matching the query [1, 2, 3, 4] returns
blocks covering 4 tokens, not exactly k = 2. -/
theorem release_match_roundtrip_cex :
    exSeq8.kvCachePos = (2, 2) ∧
    ([1, 2, 3, 4] : List Int).take 2 = exSeq8.tokenIds.take 2 ∧
    (pcMatch 2 (releaseBlocksFor true 2 exBM8 exSeq8).1.cache [1, 2, 3, 4]).1.length * 2 = 4 ∧
    (pcMatch 2 (releaseBlocksFor true 2 exBM8 exSeq8).1.cache [1, 2, 3, 4]).1.length * 2 ≠ 2 := by
  decide

/-- Witness for `release_match_roundtrip`: empty prior cache, k = 2,
query sharing the first two tokens. -/
theorem release_match_roundtrip_witness :
    2 ≤ (pcMatch 2 (releaseBlocksFor true 2 ⟨⟨[], [1, 1, 1, 1, 1, 1]⟩, emptyCache⟩
      ⟨[1, 2, 3, 4], 4, (2, 2), [5], false, true, exStop⟩).1.cache
      [1, 2, 9]).1.length * 2 :=
  release_match_roundtrip 2 ⟨⟨[], [1, 1, 1, 1, 1, 1]⟩, emptyCache⟩
    ⟨[1, 2, 3, 4], 4, (2, 2), [5], false, true, exStop⟩ 2 [1, 2, 9]
    (by decide) (emptyCache_wf 2) (by decide) (by decide) (by decide) (by decide)
    (by decide) (by decide)

/-- The scheduler wrapper never grants more tokens than the budget it was
given. -/
theorem schedulerAllocateBlocksFor_actual_le (enablePrefixCache : Bool) (B : Nat)
    (bm : BMState) (s : Sequence) (tb : Nat) :
    (schedulerAllocateBlocksFor enablePrefixCache B bm s tb).2.1 ≤ tb := by
  unfold schedulerAllocateBlocksFor
  dsimp only
  omega

/-- Attaching shared blocks only appends to a sequence's block list. -/
theorem appendSharedBlocks_blocks_mono (B : Nat) (s : Sequence) (bs : List BlockId) :
    s.blocks <+: (s.appendSharedBlocks B bs).blocks := by
  unfold Sequence.appendSharedBlocks
  by_cases h : bs.isEmpty
  · simp [h]
  · simp only [h, Bool.false_eq_true, if_false]
    exact List.prefix_append _ _

/-- `allocate_shared_blocks` only appends to a sequence's block list. -/
theorem allocateSharedBlocks_blocks_mono (enablePrefixCache : Bool) (B : Nat)
    (bm : BMState) (s : Sequence) :
    s.blocks <+: (allocateSharedBlocks enablePrefixCache B bm s).2.blocks := by
  unfold allocateSharedBlocks
  by_cases h : enablePrefixCache && s.blocks.length = 0
  · simp only [h, if_pos]
    exact appendSharedBlocks_blocks_mono B s _
  · simp only [h, Bool.false_eq_true, if_false]
    exact List.prefix_refl _

/-- `BlockManager::allocate_blocks_for` only appends to a sequence's block
list. -/
theorem allocateBlocksFor_blocks_mono (enablePrefixCache : Bool) (B : Nat)
    (bm : BMState) (s : Sequence) (numTokens : Nat) :
    s.blocks <+: (allocateBlocksFor enablePrefixCache B bm s numTokens).2.2.blocks := by
  unfold allocateBlocksFor
  dsimp only
  have h1 := allocateSharedBlocks_blocks_mono enablePrefixCache B bm s
  by_cases h2 : (numTokens + B - 1) / B ≤
      (allocateSharedBlocks enablePrefixCache B bm s).2.blocks.length
  · simpa [h2] using h1
  · simp only [h2, if_neg, if_false]
    by_cases h3 : (hasEnoughBlocks enablePrefixCache B
        (allocateSharedBlocks enablePrefixCache B bm s).1
        ((numTokens + B - 1) / B -
          (allocateSharedBlocks enablePrefixCache B bm s).2.blocks.length)).1
    · simp only [h3, not_true, Bool.false_eq_true, if_false]
      exact h1.trans (List.prefix_append _ _)
    · simp only [h3, not_false_iff, if_pos]
      exact h1

/-- The scheduler's allocation wrapper only appends to a sequence's block
list. -/
theorem schedulerAllocateBlocksFor_blocks_mono (enablePrefixCache : Bool) (B : Nat)
    (bm : BMState) (s : Sequence) (tb : Nat) :
    s.blocks <+: (schedulerAllocateBlocksFor enablePrefixCache B bm s tb).2.2.2.blocks := by
  unfold schedulerAllocateBlocksFor
  dsimp only
  by_cases h : s.blocks.length = 0
  · simp only [h, if_pos]
    exact (allocateSharedBlocks_blocks_mono enablePrefixCache B bm s).trans
      (allocateBlocksFor_blocks_mono enablePrefixCache B _ _ _)
  · simp only [h, if_neg, if_false]
    exact allocateBlocksFor_blocks_mono enablePrefixCache B _ _ _

/-- Accounting of the per-request candidate loop: the tentative totals
never exceed the remaining budgets, and they are exactly the accumulator
plus the granted candidates. -/
theorem scheduleCandidates_bounds (enablePrefixCache : Bool) (B avg remTok remSeq : Nat) :
    ∀ (seqs : List Sequence) (idx aT aS : Nat) (bm : BMState), aT ≤ remTok → aS ≤ remSeq →
      (scheduleCandidates enablePrefixCache B avg remTok remSeq seqs idx aT aS bm).allocatedTokens
          ≤ remTok ∧
      (scheduleCandidates enablePrefixCache B avg remTok remSeq seqs idx aT aS bm).allocatedSeqs
          ≤ remSeq ∧
      (scheduleCandidates enablePrefixCache B avg remTok remSeq seqs idx aT aS bm).allocatedTokens
          = aT + ((scheduleCandidates enablePrefixCache B avg remTok remSeq seqs idx aT aS
            bm).candidates.map Prod.snd).sum ∧
      (scheduleCandidates enablePrefixCache B avg remTok remSeq seqs idx aT aS bm).allocatedSeqs
          = aS + (scheduleCandidates enablePrefixCache B avg remTok remSeq seqs idx aT aS
            bm).candidates.length
  | [], idx, aT, aS, bm, hT, hS => by
    simp [scheduleCandidates, hT, hS]
  | s :: rest, idx, aT, aS, bm, hT, hS => by
    simp only [scheduleCandidates]
    by_cases hfin : s.isFinished
    · simp only [hfin, if_pos]
      exact scheduleCandidates_bounds enablePrefixCache B avg remTok remSeq rest (idx + 1)
        aT aS bm hT hS
    · simp only [hfin, Bool.false_eq_true, if_false]
      by_cases hbud : remTok ≤ aT ∨ remSeq ≤ aS
      · simp only [hbud, if_pos]
        simp [hT, hS]
      · simp only [hbud, if_neg, if_false]
        set attempt := schedulerAllocateBlocksFor enablePrefixCache B bm s
          (min avg (remTok - aT)) with hatt
        by_cases hok : attempt.1
        · simp only [hok, not_true, Bool.false_eq_true, if_false]
          have hle : attempt.2.1 ≤ min avg (remTok - aT) := by
            rw [hatt]
            exact schedulerAllocateBlocksFor_actual_le enablePrefixCache B bm s _
          have ih := scheduleCandidates_bounds enablePrefixCache B avg remTok remSeq rest
            (idx + 1) (aT + attempt.2.1) (aS + 1) attempt.2.2.1 (by omega) (by omega)
          refine ⟨ih.1, ih.2.1, ?_, ?_⟩
          · rw [ih.2.2.1]
            simp [List.map_cons, List.sum_cons]
            omega
          · rw [ih.2.2.2]
            simp
            omega
        · simp only [hok, not_false_iff, if_pos]
          simp [hT, hS]

/-- The candidate loop only ever appends blocks to each sequence. -/
theorem scheduleCandidates_blocks_mono (enablePrefixCache : Bool) (B avg remTok remSeq : Nat) :
    ∀ (seqs : List Sequence) (idx aT aS : Nat) (bm : BMState) (i : Nat),
      (seqs.getD i default).blocks <+:
        ((scheduleCandidates enablePrefixCache B avg remTok remSeq seqs idx aT aS
          bm).sequences.getD i default).blocks
  | [], idx, aT, aS, bm, i => by
    simp [scheduleCandidates]
  | s :: rest, idx, aT, aS, bm, i => by
    simp only [scheduleCandidates]
    by_cases hfin : s.isFinished
    · simp only [hfin, if_pos]
      rcases i with _ | i'
      · simp
      · simp only [List.getD_cons_succ]
        exact scheduleCandidates_blocks_mono enablePrefixCache B avg remTok remSeq rest
          (idx + 1) aT aS bm i'
    · simp only [hfin, Bool.false_eq_true, if_false]
      by_cases hbud : remTok ≤ aT ∨ remSeq ≤ aS
      · simp only [hbud, if_pos]
        exact List.prefix_refl _
      · simp only [hbud, if_neg, if_false]
        by_cases hok : (schedulerAllocateBlocksFor enablePrefixCache B bm s
            (min avg (remTok - aT))).1
        · simp only [hok, not_true, Bool.false_eq_true, if_false]
          rcases i with _ | i'
          · simp only [List.getD_cons_zero]
            exact schedulerAllocateBlocksFor_blocks_mono enablePrefixCache B bm s _
          · simp only [List.getD_cons_succ]
            exact scheduleCandidates_blocks_mono enablePrefixCache B avg remTok remSeq rest
              (idx + 1) _ _ _ i'
        · simp only [hok, not_false_iff, if_pos]
          rcases i with _ | i'
          · simp only [List.getD_cons_zero]
            exact schedulerAllocateBlocksFor_blocks_mono enablePrefixCache B bm s _
          · simp only [List.getD_cons_succ]
            exact List.prefix_refl _

/-- Token sum of concatenated batches. -/
theorem batchTokenSum_append (b1 b2 : List SequenceData) :
    batchTokenSum (b1 ++ b2) = batchTokenSum b1 + batchTokenSum b2 := by
  unfold batchTokenSum
  rw [List.map_append, List.sum_append]

/-- Token sum of the batch entries made from candidates. -/
theorem batchTokenSum_map (r : Nat) (cands : List (Nat × Nat)) :
    batchTokenSum (cands.map (fun c => SequenceData.mk r c.1 c.2)) =
      (cands.map Prod.snd).sum := by
  unfold batchTokenSum
  rw [List.map_map]
  rfl

/-- One fill-loop iteration preserves the budget accounting: the granted
tokens plus the remaining token budget never exceed the initial token
budget, and likewise for the sequence count. -/
theorem fillStep_budget (enablePrefixCache : Bool) (B avg K S : Nat) (a : FillArgs)
    (h1 : batchTokenSum a.batch + a.remTok ≤ K)
    (h2 : a.batch.length + a.remSeq ≤ S) :
    (∀ r, fillStep enablePrefixCache B avg a = .done r →
      batchTokenSum r.batch + r.remTok ≤ K ∧ r.batch.length + r.remSeq ≤ S) ∧
    (∀ a1, fillStep enablePrefixCache B avg a = .next a1 →
      batchTokenSum a1.batch + a1.remTok ≤ K ∧ a1.batch.length + a1.remSeq ≤ S) := by
  unfold fillStep
  rcases hpq : a.priorityQueue with _ | ⟨r0, rest⟩
  · refine ⟨fun r hr => ?_, fun a1 ha1 => ?_⟩
    · cases hr
      exact ⟨h1, h2⟩
    · cases ha1
  · dsimp only
    by_cases hguard : a.remTok = 0 ∨ a.remSeq = 0
    · rw [if_pos hguard]
      refine ⟨fun r hr => ?_, fun a1 ha1 => ?_⟩
      · cases hr
        exact ⟨h1, h2⟩
      · cases ha1
    · rw [if_neg hguard]
      have hb := scheduleCandidates_bounds enablePrefixCache B avg a.remTok a.remSeq
        (a.store.getD r0 default).sequences 0 0 0 a.bm (Nat.zero_le _) (Nat.zero_le _)
      set res := scheduleCandidates enablePrefixCache B avg a.remTok a.remSeq
        (a.store.getD r0 default).sequences 0 0 0 a.bm with hres
      by_cases henough : res.hasEnoughBlocks
      · rw [if_pos henough]
        refine ⟨fun r hr => ?_, fun a1 ha1 => ?_⟩
        · cases hr
        · cases ha1
          constructor
          · simp only [batchTokenSum_append, batchTokenSum_map]
            omega
          · simp only [List.length_append, List.length_map]
            omega
      · rw [if_neg henough]
        rcases hlast : a.preemptable.getLast? with _ | v
        · dsimp only
          by_cases hcand : res.candidates.isEmpty
          · rw [if_neg (by simpa using hcand)]
            refine ⟨fun r hr => ?_, fun a1 ha1 => ?_⟩
            · cases hr
              exact ⟨h1, h2⟩
            · cases ha1
          · rw [if_pos (by simpa using hcand)]
            refine ⟨fun r hr => ?_, fun a1 ha1 => ?_⟩
            · cases hr
              constructor
              · simp only [batchTokenSum_append, batchTokenSum_map]
                omega
              · simp only [List.length_append, List.length_map]
                omega
            · cases ha1
        · dsimp only
          by_cases hv : v ≠ r0
          · rw [if_pos hv]
            refine ⟨fun r hr => ?_, fun a1 ha1 => ?_⟩
            · cases hr
            · cases ha1
              exact ⟨h1, h2⟩
          · rw [if_neg hv]
            refine ⟨fun r hr => ?_, fun a1 ha1 => ?_⟩
            · cases hr
            · cases ha1
              exact ⟨h1, h2⟩

/-- The whole fill loop preserves the budget accounting, for any fuel. -/
theorem fillLoop_budget (enablePrefixCache : Bool) (B avg K S : Nat) :
    ∀ (fuel : Nat) (a : FillArgs),
      batchTokenSum a.batch + a.remTok ≤ K →
      a.batch.length + a.remSeq ≤ S →
      batchTokenSum (fillLoop enablePrefixCache B avg fuel a).batch +
          (fillLoop enablePrefixCache B avg fuel a).remTok ≤ K ∧
        (fillLoop enablePrefixCache B avg fuel a).batch.length +
          (fillLoop enablePrefixCache B avg fuel a).remSeq ≤ S
  | 0, a, h1, h2 => by
    simpa [fillLoop] using And.intro h1 h2
  | fuel + 1, a, h1, h2 => by
    have hb := fillStep_budget enablePrefixCache B avg K S a h1 h2
    unfold fillLoop
    rcases hstep : fillStep enablePrefixCache B avg a with r | a1
    · exact hb.1 r hstep
    · exact fillLoop_budget enablePrefixCache B avg K S fuel a1
        (hb.2 a1 hstep).1 (hb.2 a1 hstep).2

/-- The top-up pass keeps the batch length and bounds the token regrants:
the adjusted batch's token sum is at most the original sum plus the
remaining budget. -/
theorem topUp_budget (enablePrefixCache : Bool) (B : Nat) :
    ∀ (entries : List SequenceData) (store : List Request) (bm : BMState) (remTok : Nat),
      batchTokenSum (topUp enablePrefixCache B entries store bm remTok).1 ≤
          batchTokenSum entries + remTok ∧
        (topUp enablePrefixCache B entries store bm remTok).1.length = entries.length
  | [], store, bm, remTok => by
    simp [topUp, batchTokenSum]
  | e :: rest, store, bm, remTok => by
    unfold topUp
    dsimp only
    set attempt := schedulerAllocateBlocksFor enablePrefixCache B bm
      ((store.getD e.reqIdx default).sequences.getD e.seqIdx default)
      (remTok + e.tokenBudget) with hatt
    have hle : attempt.2.1 ≤ remTok + e.tokenBudget := by
      rw [hatt]
      exact schedulerAllocateBlocksFor_actual_le enablePrefixCache B bm _ _
    by_cases hok : attempt.1
    · rw [if_neg (not_not_intro hok)]
      by_cases hz : remTok + e.tokenBudget - attempt.2.1 = 0
      · rw [if_pos hz]
        constructor
        · simp only [batchTokenSum, List.map_cons, List.sum_cons]
          omega
        · simp
      · rw [if_neg hz]
        have ih := topUp_budget enablePrefixCache B rest
          (store.set e.reqIdx
            { store.getD e.reqIdx default with
              sequences := (store.getD e.reqIdx default).sequences.set e.seqIdx
                attempt.2.2.2 })
          attempt.2.2.1 (remTok + e.tokenBudget - attempt.2.1)
        constructor
        · simp only [batchTokenSum, List.map_cons, List.sum_cons] at ih ⊢
          omega
        · simp only [List.length_cons] at ih ⊢
          omega
    · rw [if_pos hok]
      constructor
      · simp only [batchTokenSum, List.map_cons, List.sum_cons]
        omega
      · simp

/-- Counterexample to Claim C4 as stated: with max_tokens_per_batch = 1
and max_seqs_per_batch = 2 the scheduler builds a batch whose token quota
sum is 2, exceeding max_tokens_per_batch, because the working token
budget is initialised to max(max_tokens_per_batch, max_seqs_per_batch). -/
theorem buildSequenceBatch_token_cap_cex :
    ¬ batchTokenSum (buildSequenceBatch true 1 2 2 [0] [] [exReqA] exBMOneFree).batch ≤ 1 := by
  decide

/-- Claim C4 (amended): for every batch built by the scheduler, the sum
of the per-sequence token quotas is at most
max(max_tokens_per_batch, max_seqs_per_batch) — the initial working token
budget — and the number of batch entries is at most
max(max_seqs_per_batch, 1). -/
theorem buildSequenceBatch_budgets (enablePrefixCache : Bool)
    (maxTokensPerBatch maxSeqsPerBatch B : Nat)
    (pq preempt : List Nat) (store : List Request) (bm : BMState) :
    batchTokenSum (buildSequenceBatch enablePrefixCache maxTokensPerBatch maxSeqsPerBatch B
        pq preempt store bm).batch ≤ max maxTokensPerBatch maxSeqsPerBatch ∧
      (buildSequenceBatch enablePrefixCache maxTokensPerBatch maxSeqsPerBatch B
        pq preempt store bm).batch.length ≤ max maxSeqsPerBatch 1 := by
  unfold buildSequenceBatch
  dsimp only
  have hfl := fillLoop_budget enablePrefixCache B
    (max (maxTokensPerBatch / maxSeqsPerBatch) 1)
    (max maxTokensPerBatch maxSeqsPerBatch) (max maxSeqsPerBatch 1)
    (pq.length + preempt.length + 1)
    ⟨pq, preempt, store, bm, max maxTokensPerBatch maxSeqsPerBatch,
      max maxSeqsPerBatch 1, [], []⟩
    (by simp [batchTokenSum]) (by simp)
  set a := fillLoop enablePrefixCache B (max (maxTokensPerBatch / maxSeqsPerBatch) 1)
    (pq.length + preempt.length + 1)
    ⟨pq, preempt, store, bm, max maxTokensPerBatch maxSeqsPerBatch,
      max maxSeqsPerBatch 1, [], []⟩ with ha
  by_cases hrt : 0 < a.remTok
  · rw [if_pos hrt]
    have ht := topUp_budget enablePrefixCache B a.batch a.store a.bm a.remTok
    rcases hadj : (topUp enablePrefixCache B a.batch a.store a.bm a.remTok).1
        with _ | ⟨e, es⟩
    · rcases hq : a.priorityQueue with _ | ⟨r, rs⟩
      · dsimp only
        constructor
        · simp [batchTokenSum]
        · simp
      · dsimp only
        constructor
        · simp [batchTokenSum]
        · simp
    · rw [hadj] at ht
      rcases hq : a.priorityQueue with _ | ⟨r, rs⟩
      · dsimp only
        exact ⟨le_trans ht.1 hfl.1, by omega⟩
      · dsimp only
        exact ⟨le_trans ht.1 hfl.1, by omega⟩
  · rw [if_neg hrt]
    rcases hb : a.batch with _ | ⟨e, es⟩
    · rcases hq : a.priorityQueue with _ | ⟨r, rs⟩
      · dsimp only
        constructor
        · simp [batchTokenSum]
        · simp
      · dsimp only
        constructor
        · simp [batchTokenSum]
        · simp
    · rw [hb] at hfl
      rcases hq : a.priorityQueue with _ | ⟨r, rs⟩
      · dsimp only
        exact ⟨by omega, by omega⟩
      · dsimp only
        exact ⟨by omega, by omega⟩

/-- Counterexample to Claim C2 as stated: request 0 has two fresh
sequences but only one block is free; allocation fails on the second
sequence with nobody preemptable, yet the scheduler keeps the first
sequence's tentative assignment in the batch and pops the request from
the priority queue instead of aborting entirely. -/
theorem fill_no_preempt_partial_schedule_cex :
    (buildSequenceBatch true 16 8 2 [0] [] [exReqAB] exBMOneFree).batch
        = [SequenceData.mk 0 0 2] ∧
      (buildSequenceBatch true 16 8 2 [0] [] [exReqAB] exBMOneFree).priorityQueue = [] ∧
      (scheduleCandidates true 2 2 16 8 exReqAB.sequences 0 0 0
        exBMOneFree).hasEnoughBlocks = false := by
  decide

/-- Claim C2 (amended): in the fill phase, when block allocation fails
for a sequence of the head request and the preemptable deque is empty,
the loop exits — but the tentative assignment is NOT aborted: if any
candidate sequences of the request were already granted blocks, they stay
in the batch and the request is popped from the priority queue (partial
scheduling); only when no candidate was collected is the request kept in
the queue with nothing batched. -/
theorem fillStep_alloc_fail_no_preempt (enablePrefixCache : Bool) (B avg : Nat)
    (a : FillArgs) (r : Nat) (rest : List Nat)
    (cands : List (Nat × Nat)) (aT aS : Nat) (bm1 : BMState) (seqs1 : List Sequence)
    (hpq : a.priorityQueue = r :: rest)
    (hT : a.remTok ≠ 0) (hS : a.remSeq ≠ 0)
    (hpre : a.preemptable = [])
    (hfail : scheduleCandidates enablePrefixCache B avg a.remTok a.remSeq
      (a.store.getD r default).sequences 0 0 0 a.bm = ⟨false, cands, aT, aS, bm1, seqs1⟩) :
    ∃ res, fillStep enablePrefixCache B avg a = .done res ∧
      res.batch = a.batch ++ cands.map (fun c => SequenceData.mk r c.1 c.2) ∧
      res.priorityQueue = (if cands.isEmpty then r :: rest else rest) ∧
      res.requestsBatch = a.requestsBatch ++ (if cands.isEmpty then [] else [r]) := by
  unfold fillStep
  rw [hpq]
  dsimp only
  rw [if_neg (not_or.mpr ⟨hT, hS⟩)]
  rw [hfail, hpre]
  dsimp only
  simp only [Bool.false_eq_true, if_false, List.getLast?_nil]
  by_cases hc : cands.isEmpty
  · rw [if_neg (not_not_intro hc), if_pos hc, if_pos hc]
    refine ⟨_, rfl, ?_, rfl, by simp⟩
    simp [List.isEmpty_iff.mp hc]
  · rw [if_pos hc, if_neg hc, if_neg hc]
    exact ⟨_, rfl, rfl, rfl, rfl⟩

/-- Witness for the amended C2 theorem at a concrete failing step:
request 0 with two fresh sequences and one free block gets its first
sequence partially scheduled. -/
theorem fillStep_alloc_fail_no_preempt_witness :
    ∃ res, fillStep true 2 2 ⟨[0], [], [exReqAB], exBMOneFree, 16, 8, [], []⟩ = .done res ∧
      res.batch = [SequenceData.mk 0 0 2] ∧
      res.priorityQueue = [] ∧
      res.requestsBatch = [0] :=
  fillStep_alloc_fail_no_preempt true 2 2 ⟨[0], [], [exReqAB], exBMOneFree, 16, 8, [], []⟩
    0 [] [(0, 2)] 2 1 ⟨⟨[], [1]⟩, emptyCache⟩
    [⟨[1, 2], 2, (0, 0), [0], false, true, exStop⟩, exSeqB]
    rfl (by decide) (by decide) rfl rfl

/-- Claim C9: when allocation fails for the head request and the victim
popped from the back of the preemptable deque is that same request, the
step only drops the victim entry and stores the attempt's sequence
mutations — `release_blocks_for` is not called, and no sequence of the
request loses a block (each block list is only extended). -/
theorem fillStep_self_victim_no_release (enablePrefixCache : Bool) (B avg : Nat)
    (a : FillArgs) (r : Nat) (rest : List Nat)
    (cands : List (Nat × Nat)) (aT aS : Nat) (bm1 : BMState) (seqs1 : List Sequence)
    (hpq : a.priorityQueue = r :: rest)
    (hT : a.remTok ≠ 0) (hS : a.remSeq ≠ 0)
    (hfail : scheduleCandidates enablePrefixCache B avg a.remTok a.remSeq
      (a.store.getD r default).sequences 0 0 0 a.bm = ⟨false, cands, aT, aS, bm1, seqs1⟩)
    (hvict : a.preemptable.getLast? = some r) :
    fillStep enablePrefixCache B avg a = .next { a with
      preemptable := a.preemptable.dropLast,
      store := a.store.set r { a.store.getD r default with sequences := seqs1 },
      bm := bm1 } ∧
    ∀ i, ((a.store.getD r default).sequences.getD i default).blocks <+:
      (seqs1.getD i default).blocks := by
  constructor
  · unfold fillStep
    rw [hpq]
    dsimp only
    rw [if_neg (not_or.mpr ⟨hT, hS⟩)]
    rw [hfail, hvict]
    dsimp only
    simp only [Bool.false_eq_true, if_false]
    rw [if_neg (not_not_intro rfl)]
  · intro i
    have hm := scheduleCandidates_blocks_mono enablePrefixCache B avg a.remTok a.remSeq
      (a.store.getD r default).sequences 0 0 0 a.bm i
    rw [hfail] at hm
    exact hm

/-- Witness for the C9 theorem at a concrete step: request 0 is both the
head request and the only preemptable entry; its allocation fails with no
free blocks, and the step keeps its (unchanged) blocks and state. -/
theorem fillStep_self_victim_no_release_witness :
    fillStep true 2 2 ⟨[0], [0], [exReqA], exBMNoFree, 16, 8, [], []⟩ =
      .next ⟨[0], [], [⟨[exSeqA], 1⟩], exBMNoFree, 16, 8, [], []⟩ ∧
    ∀ i, (([exSeqA] : List Sequence).getD i default).blocks <+:
      (([exSeqA] : List Sequence).getD i default).blocks :=
  fillStep_self_victim_no_release true 2 2 ⟨[0], [0], [exReqA], exBMNoFree, 16, 8, [], []⟩
    0 [] [] 0 0 exBMNoFree [exSeqA] rfl (by decide) (by decide) rfl rfl
